import Mathlib

/-!
Verification development for the Athena degree-audit repository.

Part 1 embeds the frontend utility functions from
`src/frontend/src/utils.ts` and the SDK `methodName` generator from the
openapi-ts configuration.

Part 2 models the Audit Rule Engine described in the specification
(lexer/parser aside, the data model, linker and allocator/evaluator) and
proves the testable properties stated for it.
-/

namespace Athena

/-- Shallow embedding of the JavaScript value inspected by
`getErrorMessages`.  Each field models the truthiness or presence of the
property the TypeScript code reads through optional chaining:
`isAxiosErrorFlag` is the truthiness of `error?.isAxiosError`,
`ctorName` is `error?.constructor?.name`, `hasRequest` the truthiness of
`error?.request`, `respErrors` is `error.response?.data?.errors` when it
is an array (`none` otherwise), `respMessage` is
`error.response?.data?.message` when truthy, `codeConnRefused` is
whether `error.code === "ERR_CONNECTION_REFUSED"`, `isErrorInstance` is
`error instanceof Error`, and `message` is the `message` property when
present (`none` models an absent or undefined property; `null` and
`undefined` inputs are the record with all fields false/none). -/
structure JsError where
  isAxiosErrorFlag : Bool
  ctorName : Option String
  hasRequest : Bool
  respErrors : Option (List String)
  respMessage : Option String
  codeConnRefused : Bool
  isErrorInstance : Bool
  message : Option String
deriving DecidableEq, Repr

/-- Embedding of `getErrorMessages` from `src/frontend/src/utils.ts`. -/
def getErrorMessages (e : JsError) : List String :=
  let isAxios := e.isAxiosErrorFlag || e.ctorName == some "AxiosError"
  let step1 : Option (List String) :=
    if isAxios || e.hasRequest then
      match e.respErrors with
      | some errs => some errs
      | none =>
        match e.respMessage with
        | some m => some [m]
        | none =>
          if e.hasRequest || e.codeConnRefused then
            some ["Server not responding. Please try again!"]
          else none
    else none
  match step1 with
  | some r => r
  | none =>
    if e.isErrorInstance || decide ((e.message.getD "") ≠ "") then
      [e.message.getD ""]
    else ["An unknown error occurred."]

/-- First character of a word as a string; models the JavaScript
expression `word[0]` followed by `Array.prototype.join`, which renders
the `undefined` produced on an empty word as the empty string. -/
def firstCharStr (w : String) : String :=
  match w.data with
  | [] => ""
  | c :: _ => String.singleton c

/-- Model of `Array.prototype.join("")`. -/
def joinAll : List String → String
  | [] => ""
  | s :: rest => s ++ joinAll rest

/-- The unconditional multi-character uppercase expansions of the
Unicode full case mapping (SpecialCasing.txt): the Latin sharp s and
ligatures, the Armenian ligatures, and the Greek forms whose upper case
adds a capital iota or decomposes a precomposed accent cluster.  Each
entry maps one character to the list of characters its upper case
consists of. -/
def specialUpper : List (Char × List Char) :=
  [   ('\u00DF', ['\u0053', '\u0053']),
   ('\u0149', ['\u02BC', '\u004E']),
   ('\u01F0', ['\u004A', '\u030C']),
   ('\u1E96', ['\u0048', '\u0331']),
   ('\u1E97', ['\u0054', '\u0308']),
   ('\u1E98', ['\u0057', '\u030A']),
   ('\u1E99', ['\u0059', '\u030A']),
   ('\u1E9A', ['\u0041', '\u02BE']),
   ('\uFB00', ['\u0046', '\u0046']),
   ('\uFB01', ['\u0046', '\u0049']),
   ('\uFB02', ['\u0046', '\u004C']),
   ('\uFB03', ['\u0046', '\u0046', '\u0049']),
   ('\uFB04', ['\u0046', '\u0046', '\u004C']),
   ('\uFB05', ['\u0053', '\u0054']),
   ('\uFB06', ['\u0053', '\u0054']),
   ('\u0587', ['\u0535', '\u0552']),
   ('\uFB13', ['\u0544', '\u0546']),
   ('\uFB14', ['\u0544', '\u0535']),
   ('\uFB15', ['\u0544', '\u053B']),
   ('\uFB16', ['\u054E', '\u0546']),
   ('\uFB17', ['\u0544', '\u053D']),
   ('\u0390', ['\u0399', '\u0308', '\u0301']),
   ('\u03B0', ['\u03A5', '\u0308', '\u0301']),
   ('\u1F50', ['\u03A5', '\u0313']),
   ('\u1F52', ['\u03A5', '\u0313', '\u0300']),
   ('\u1F54', ['\u03A5', '\u0313', '\u0301']),
   ('\u1F56', ['\u03A5', '\u0313', '\u0342']),
   ('\u1F80', ['\u1F08', '\u0399']),
   ('\u1F81', ['\u1F09', '\u0399']),
   ('\u1F82', ['\u1F0A', '\u0399']),
   ('\u1F83', ['\u1F0B', '\u0399']),
   ('\u1F84', ['\u1F0C', '\u0399']),
   ('\u1F85', ['\u1F0D', '\u0399']),
   ('\u1F86', ['\u1F0E', '\u0399']),
   ('\u1F87', ['\u1F0F', '\u0399']),
   ('\u1F88', ['\u1F08', '\u0399']),
   ('\u1F89', ['\u1F09', '\u0399']),
   ('\u1F8A', ['\u1F0A', '\u0399']),
   ('\u1F8B', ['\u1F0B', '\u0399']),
   ('\u1F8C', ['\u1F0C', '\u0399']),
   ('\u1F8D', ['\u1F0D', '\u0399']),
   ('\u1F8E', ['\u1F0E', '\u0399']),
   ('\u1F8F', ['\u1F0F', '\u0399']),
   ('\u1F90', ['\u1F28', '\u0399']),
   ('\u1F91', ['\u1F29', '\u0399']),
   ('\u1F92', ['\u1F2A', '\u0399']),
   ('\u1F93', ['\u1F2B', '\u0399']),
   ('\u1F94', ['\u1F2C', '\u0399']),
   ('\u1F95', ['\u1F2D', '\u0399']),
   ('\u1F96', ['\u1F2E', '\u0399']),
   ('\u1F97', ['\u1F2F', '\u0399']),
   ('\u1F98', ['\u1F28', '\u0399']),
   ('\u1F99', ['\u1F29', '\u0399']),
   ('\u1F9A', ['\u1F2A', '\u0399']),
   ('\u1F9B', ['\u1F2B', '\u0399']),
   ('\u1F9C', ['\u1F2C', '\u0399']),
   ('\u1F9D', ['\u1F2D', '\u0399']),
   ('\u1F9E', ['\u1F2E', '\u0399']),
   ('\u1F9F', ['\u1F2F', '\u0399']),
   ('\u1FA0', ['\u1F68', '\u0399']),
   ('\u1FA1', ['\u1F69', '\u0399']),
   ('\u1FA2', ['\u1F6A', '\u0399']),
   ('\u1FA3', ['\u1F6B', '\u0399']),
   ('\u1FA4', ['\u1F6C', '\u0399']),
   ('\u1FA5', ['\u1F6D', '\u0399']),
   ('\u1FA6', ['\u1F6E', '\u0399']),
   ('\u1FA7', ['\u1F6F', '\u0399']),
   ('\u1FA8', ['\u1F68', '\u0399']),
   ('\u1FA9', ['\u1F69', '\u0399']),
   ('\u1FAA', ['\u1F6A', '\u0399']),
   ('\u1FAB', ['\u1F6B', '\u0399']),
   ('\u1FAC', ['\u1F6C', '\u0399']),
   ('\u1FAD', ['\u1F6D', '\u0399']),
   ('\u1FAE', ['\u1F6E', '\u0399']),
   ('\u1FAF', ['\u1F6F', '\u0399']),
   ('\u1FB2', ['\u1FBA', '\u0399']),
   ('\u1FB3', ['\u0391', '\u0399']),
   ('\u1FB4', ['\u0386', '\u0399']),
   ('\u1FB6', ['\u0391', '\u0342']),
   ('\u1FB7', ['\u0391', '\u0342', '\u0399']),
   ('\u1FBC', ['\u0391', '\u0399']),
   ('\u1FC2', ['\u1FCA', '\u0399']),
   ('\u1FC3', ['\u0397', '\u0399']),
   ('\u1FC4', ['\u0389', '\u0399']),
   ('\u1FC6', ['\u0397', '\u0342']),
   ('\u1FC7', ['\u0397', '\u0342', '\u0399']),
   ('\u1FCC', ['\u0397', '\u0399']),
   ('\u1FD2', ['\u0399', '\u0308', '\u0300']),
   ('\u1FD3', ['\u0399', '\u0308', '\u0301']),
   ('\u1FD6', ['\u0399', '\u0342']),
   ('\u1FD7', ['\u0399', '\u0308', '\u0342']),
   ('\u1FE2', ['\u03A5', '\u0308', '\u0300']),
   ('\u1FE3', ['\u03A5', '\u0308', '\u0301']),
   ('\u1FE4', ['\u03A1', '\u0313']),
   ('\u1FE6', ['\u03A5', '\u0342']),
   ('\u1FE7', ['\u03A5', '\u0308', '\u0342']),
   ('\u1FF2', ['\u1FFA', '\u0399']),
   ('\u1FF3', ['\u03A9', '\u0399']),
   ('\u1FF4', ['\u038F', '\u0399']),
   ('\u1FF6', ['\u03A9', '\u0342']),
   ('\u1FF7', ['\u03A9', '\u0342', '\u0399']),
   ('\u1FFC', ['\u03A9', '\u0399'])]

/-- Model of the Unicode full uppercase mapping of one character, as
`String.prototype.toUpperCase` applies it: the one-to-many expansions
of `specialUpper` are carried explicitly; one-to-one mappings are
abstracted by `Char.toUpper` (the claims about `getInitials` depend
only on lengths, which every one-to-one mapping preserves). -/
def jsUpperChar (c : Char) : List Char :=
  match specialUpper.find? (fun p => p.1 == c) with
  | some p => p.2
  | none => [c.toUpper]

/-- Model of `String.prototype.toUpperCase` (Unicode full case
mapping, character by character; one-to-many on the `specialUpper`
entries). -/
def toUpperStr (s : String) : String :=
  String.mk ((s.data.map jsUpperChar).flatten)

/-- Model of `String.prototype.split` with a one-character separator,
over the character list: splitting yields the (possibly empty) chunks
between separator occurrences, and the empty input yields `[[]]`,
matching `"".split(" ") === [""]` in JavaScript. -/
def splitChar (c : Char) : List Char → List (List Char)
  | [] => [[]]
  | a :: rest =>
    match splitChar c rest with
    | [] => [[]]
    | w :: ws => if a = c then [] :: w :: ws else (a :: w) :: ws

/-- Model of `name.split(" ")`. -/
def splitOnSpace (s : String) : List String :=
  (splitChar ' ' s.data).map String.mk

/-- Embedding of `getInitials` from `src/frontend/src/utils.ts`:
`name.split(" ").slice(0, 2).map(w => w[0]).join("").toUpperCase()`. -/
def getInitials (name : String) : String :=
  toUpperStr (joinAll (((splitOnSpace name).take 2).map firstCharStr))

/-- Model of `String.prototype.toLowerCase` (character-wise lower
case). -/
def toLowerStr (s : String) : String :=
  String.mk (s.data.map Char.toLower)

/-- Model of `str.charAt(0).toLowerCase() + str.slice(1)`: lower-case
the first character, keep the rest. -/
def lowerFirst (s : String) : String :=
  match s.data with
  | [] => ""
  | c :: rest => String.mk (c.toLower :: rest)

/-- Embedding of the `methodName` generator from the openapi-ts
configuration (`src/unnamed/part_002`).  `name` is `operation.name`
(`none` models a missing or non-string value, `some ""` a present empty
string, which is falsy in JavaScript and also hits the early return) and
`service` is `operation.service`.  `slice(service.length)` and
`startsWith` are modelled on the character lists. -/
def methodName (name : Option String) (service : Option String) : String :=
  match name with
  | none => "operation"
  | some n =>
    if n = "" then "operation"
    else
      let n' :=
        match service with
        | none => n
        | some s =>
          if s ≠ "" ∧ (toLowerStr s).data.isPrefixOf (toLowerStr n).data then
            String.mk (n.data.drop s.data.length)
          else n
      lowerFirst n'

/-- The behaviour claim C9 ascribes to `methodName`, transcribed from
the claim text: the `"operation"` fallback only for a missing or
non-string name, otherwise the (case-insensitive) service stem is
removed and the first character lower-cased. -/
def methodNameClaimed (name : Option String) (service : Option String) : String :=
  match name with
  | none => "operation"
  | some n =>
    let n' :=
      match service with
      | none => n
      | some s =>
        if (toLowerStr s).data.isPrefixOf (toLowerStr n).data then
          String.mk (n.data.drop s.data.length)
        else n
    lowerFirst n'

/-- Modelled from the spec: the grade enumeration, `F < D < C < B < A`
plus the Pass/Fail/Transfer/InProgress markers (spec section 3). -/
inductive Grade
  | f | d | c | b | a | pass | fail | transfer | inProgress
deriving DecidableEq, Repr

/-- Modelled from the spec: rank used for `grade at-least` floors.  The
spec orders the letter grades; Pass and Transfer are taken to meet any
floor, Fail and InProgress none above F. -/
def Grade.rank : Grade → Nat
  | .f => 0
  | .d => 1
  | .c => 2
  | .b => 3
  | .a => 4
  | .pass => 5
  | .transfer => 5
  | .fail => 0
  | .inProgress => 0

/-- Modelled from the spec: grade points for the GPA aggregate; the
non-letter markers carry no points. -/
def Grade.points : Grade → Option ℚ
  | .f => some 0
  | .d => some 1
  | .c => some 2
  | .b => some 3
  | .a => some 4
  | _ => none

/-- Modelled from the spec: an immutable course record (spec section 3).
The credit value is a rational; the specification's invariant that it is
non-negative appears as a hypothesis of the theorems that need it.
Identity is `(subject, number, term)`; `repeated` is the repeat flag. -/
structure Course where
  subject : String
  number : Nat
  credits : ℚ
  grade : Grade
  term : Nat
  repeated : Bool
deriving DecidableEq, Repr

/-- Modelled from the spec: a transcript is an ordered list of courses,
insertion order chronological. -/
abbrev Transcript := List Course

/-- Total credits of a list of courses. -/
def creditsSum (l : List Course) : ℚ := (l.map Course.credits).sum

/-- All credits in a list are non-negative (the spec's invariant on
credit values). -/
def NonnegCredits (l : List Course) : Prop := ∀ c ∈ l, 0 ≤ c.credits

/-- Modelled from the spec: a course-number range such as `100-199`. -/
structure NumberRange where
  lo : Nat
  hi : Nat
deriving DecidableEq, Repr

/-- Modelled from the spec: a subject pattern, either an exact subject
code or a wildcard stem such as `ENG*`. -/
inductive SubjectPat
  | exact (s : String)
  | star (stem : String)
deriving DecidableEq, Repr

/-- Whether a subject pattern matches a subject code. -/
def SubjectPat.matches : SubjectPat → String → Bool
  | .exact s, subj => s == subj
  | .star stem, subj => stem.data.isPrefixOf subj.data

/-- Modelled from the spec: one `(subject-pattern, number-range)` pair
of a `CourseSet`. -/
structure CoursePattern where
  subj : SubjectPat
  range : NumberRange
deriving DecidableEq, Repr

/-- Whether a pattern matches a course. -/
def CoursePattern.matches (p : CoursePattern) (c : Course) : Bool :=
  p.subj.matches c.subject && (p.range.lo ≤ c.number && c.number ≤ p.range.hi)

/-- Whether a grade meets an optional grade floor. -/
def gradeOK : Option Grade → Grade → Bool
  | none, _ => true
  | some floor, g => floor.rank ≤ g.rank

/-- Modelled from the spec: the payload of a `CourseSet` leaf. -/
structure CourseSetSpec where
  patterns : List CoursePattern
  minCount : Nat
  minCredits : ℚ
  gradeFloor : Option Grade
deriving DecidableEq, Repr

/-- Whether a `CourseSet` leaf may allocate a given course: some
pattern matches and the grade floor is met. -/
def CourseSetSpec.accepts (cs : CourseSetSpec) (c : Course) : Bool :=
  cs.patterns.any (fun p => p.matches c) && gradeOK cs.gradeFloor c.grade

/-- Modelled from the spec: aggregate functions usable in `Conditional`
predicates — total credits, GPA and pattern counts (spec section 4.2). -/
inductive Agg
  | totalCredits
  | gpa
  | countOf (p : CoursePattern)
deriving DecidableEq, Repr

/-- Value of an aggregate over a transcript.  GPA averages the grade
points of the letter-graded courses (0 when there are none). -/
def Agg.value : Agg → Transcript → ℚ
  | .totalCredits, t => creditsSum t
  | .gpa, t =>
    let pts := t.filterMap (fun c => c.grade.points)
    if pts.length = 0 then 0 else pts.sum / pts.length
  | .countOf p, t => (t.filter (fun c => p.matches c)).length

/-- Comparison operators of predicate expressions. -/
inductive Cmp
  | lt | le | eq | ge | gt
deriving DecidableEq, Repr

/-- Modelled from the spec: a `Conditional` predicate, a comparison of
one aggregate against a rational bound. -/
structure Predicate where
  agg : Agg
  cmp : Cmp
  bound : ℚ
deriving DecidableEq, Repr

/-- Evaluate a predicate against the aggregates of the full transcript
(computed once at audit start, spec section 4.3). -/
def Predicate.holds (p : Predicate) (t : Transcript) : Bool :=
  match p.cmp with
  | .lt => p.agg.value t < p.bound
  | .le => p.agg.value t ≤ p.bound
  | .eq => p.agg.value t == p.bound
  | .ge => p.bound ≤ p.agg.value t
  | .gt => p.bound < p.agg.value t

/-- Modelled from the spec: group modes `ALL`, `ANY`, `N_OF(k)`. -/
inductive GroupMode
  | all | any | nOf (k : Nat)
deriving DecidableEq, Repr

/-- Modelled from the spec: block-reference sharing policies. -/
inductive SharePolicy
  | exclusive | shared
deriving DecidableEq, Repr

mutual
/-- Modelled from the spec: the Rule AST (spec section 3), a tagged
tree of course sets, groups, maxima, conditionals and block
references. -/
inductive SRule
  | courseSet (cs : CourseSetSpec)
  | group (mode : GroupMode) (children : SRuleList)
  | maximum (maxCount : Option Nat) (maxCredits : Option ℚ) (child : SRule)
  | cond (p : Predicate) (thenR : SRule) (elseR : SRule)
  | blockRef (id : String) (policy : SharePolicy)

/-- The ordered children of a `Group` node. -/
inductive SRuleList
  | nil
  | cons (r : SRule) (rs : SRuleList)
end

mutual
/-- Modelled from the spec: the per-node verdict tree of an
`AuditResult` — satisfied flag, courses applied and, for leaves, the
course-set payload from which a shortfall description derives. -/
inductive Verdict
  | leaf (sat : Bool) (applied : List Course) (cs : CourseSetSpec)
  | node (sat : Bool) (children : VerdictList)

/-- Child verdicts of an inner node. -/
inductive VerdictList
  | nil
  | cons (v : Verdict) (vs : VerdictList)
end

/-- Satisfied flag of a verdict. -/
def Verdict.vSat : Verdict → Bool
  | .leaf s _ _ => s
  | .node s _ => s

/-- Number of child verdicts. -/
def VerdictList.len : VerdictList → Nat
  | .nil => 0
  | .cons _ vs => vs.len + 1

/-- Number of satisfied child verdicts. -/
def VerdictList.countSat : VerdictList → Nat
  | .nil => 0
  | .cons v vs => (if v.vSat then 1 else 0) + vs.countSat

/-- Modelled from the spec: group satisfaction — every child for `ALL`,
at least one for `ANY`, at least `k` for `N_OF(k)`. -/
def modeSat : GroupMode → VerdictList → Bool
  | .all, vs => vs.countSat == vs.len
  | .any, vs => 1 ≤ vs.countSat
  | .nOf k, vs => k ≤ vs.countSat

/-- Modelled from the spec: candidate preference order — chronological
term ascending, then credit value descending. -/
def courseLE (x y : Course) : Bool :=
  x.term < y.term || (x.term == y.term && y.credits ≤ x.credits)

/-- Insert a course into an ordered candidate list, after every
candidate it does not strictly precede; later-considered courses
therefore come after their ties, making the order stable. -/
def insertSorted (a : Course) : List Course → List Course
  | [] => [a]
  | b :: l =>
    if courseLE a b && !courseLE b a then a :: b :: l
    else b :: insertSorted a l

/-- Order a candidate pool by the preference order, stably. -/
def sortPool (l : List Course) : List Course :=
  l.foldl (fun acc c => insertSorted c acc) []

/-- Modelled from the spec: greedy consumption — take candidates in
order until both the count and the credit minimum are met or the pool
is exhausted.  `cnt` and `acc` are the count and credits taken so
far. -/
def greedyGo (mc : Nat) (mcr : ℚ) (cnt : Nat) (acc : ℚ) : List Course → List Course
  | [] => []
  | c :: rest =>
    if mc ≤ cnt ∧ mcr ≤ acc then []
    else c :: greedyGo mc mcr (cnt + 1) (acc + c.credits) rest

/-- Modelled from the spec: the courses a `CourseSet` leaf consumes
from a pool — filter by pattern and grade floor, order by the
preference order, consume greedily. -/
def selectCourses (cs : CourseSetSpec) (pool : List Course) : List Course :=
  greedyGo cs.minCount cs.minCredits 0 0 (sortPool (pool.filter cs.accepts))

/-- Whether a selection meets both minimums of a `CourseSet`. -/
def csSat (cs : CourseSetSpec) (sel : List Course) : Bool :=
  cs.minCount ≤ sel.length && cs.minCredits ≤ creditsSum sel

/-- Whether a consumed list respects the optional count and credit
ceilings of a `Maximum` node. -/
def withinCap (mc : Option Nat) (mcr : Option ℚ) (l : List Course) : Bool :=
  (match mc with
   | none => true
   | some n => l.length ≤ n) &&
  (match mcr with
   | none => true
   | some q => creditsSum l ≤ q)

/-- Modelled from the spec: release consumed courses, most recently
consumed first, until the ceiling holds.  The argument is the consumed
list in reverse selection order; the result is the kept tail. -/
def capTrim (mc : Option Nat) (mcr : Option ℚ) : List Course → List Course
  | [] => []
  | c :: rest =>
    if withinCap mc mcr (c :: rest) then c :: rest
    else capTrim mc mcr rest

/-- Remove the first occurrence of a course from a pool. -/
def removeOne (a : Course) : List Course → List Course
  | [] => []
  | b :: l => if b = a then l else b :: removeOne a l

/-- Remove one occurrence of each consumed course from a pool (the
evaluator's allocation-state update). -/
def consume : List Course → List Course → List Course
  | pool, [] => pool
  | pool, a :: s => consume (removeOne a pool) s

/-- Modelled from the spec: the evaluator's only failure mode,
`EvaluationError{unresolved-reference}`. -/
inductive EvalErr
  | unresolvedReference
deriving DecidableEq, Repr

/-- An evaluation outcome: the verdict tree and the consumed courses in
selection order. -/
abbrev EvalOut := Verdict × List Course

/-- How a `BlockReference` is evaluated: the handler receives the
referenced block id and the pool to evaluate it against. -/
abbrev RefHandler := String → List Course → Except EvalErr EvalOut

mutual
/-- Modelled from the spec: the allocator/evaluator, one step per node
type (spec section 4.3).  `full` is the original transcript, used by
`Conditional` predicates and `SHARED` references; `pool` is the current
unconsumed pool. -/
def evalR (refE : RefHandler) (full : Transcript) : SRule → List Course → Except EvalErr EvalOut
  | .courseSet cs, pool =>
    let sel := selectCourses cs pool
    .ok (.leaf (csSat cs sel) sel cs, sel)
  | .group m rs, pool => do
    let (vs, c) ← evalRList refE full rs pool
    .ok (.node (modeSat m vs) vs, c)
  | .maximum mc mcr child, pool => do
    let (_, c1) ← evalR refE full child pool
    let kept := (capTrim mc mcr c1.reverse).reverse
    let (v2, c2) ← evalR refE full child kept
    .ok (.node v2.vSat (.cons v2 .nil), c2)
  | .cond p rT rE, pool =>
    if p.holds full then do
      let (v, c) ← evalR refE full rT pool
      .ok (.node v.vSat (.cons v .nil), c)
    else do
      let (v, c) ← evalR refE full rE pool
      .ok (.node v.vSat (.cons v .nil), c)
  | .blockRef id pol, pool =>
    match pol with
    | .exclusive => do
      let (v, c) ← refE id pool
      .ok (.node v.vSat (.cons v .nil), c)
    | .shared => do
      let (v, _) ← refE id full
      .ok (.node v.vSat (.cons v .nil), [])

/-- Evaluate group children in declared order, threading the pool; all
children are evaluated (complete reporting, spec section 4.3). -/
def evalRList (refE : RefHandler) (full : Transcript) : SRuleList → List Course → Except EvalErr (VerdictList × List Course)
  | .nil, _ => .ok (.nil, [])
  | .cons r rs, pool => do
    let (v, c1) ← evalR refE full r pool
    let (vs, c2) ← evalRList refE full rs (consume pool c1)
    .ok (.cons v vs, c1 ++ c2)
end

/-- Look up a block body in the linked block table. -/
def lookupBlock (env : List (String × SRule)) (id : String) : Option SRule :=
  match env with
  | [] => none
  | (n, r) :: rest => if n = id then some r else lookupBlock rest id

/-- The reference handler of an unlinked evaluation: every reference is
unresolved. -/
def noRefs : RefHandler := fun _ _ => .error .unresolvedReference

/-- Modelled from the spec: evaluation against a block table.  The
depth budget `n` bounds the length of reference chains; the linker's
acyclicity check guarantees the budget chosen by `runEval` is never
exhausted on a linked block set. -/
def evalDepth (env : List (String × SRule)) (full : Transcript) : Nat → SRule → List Course → Except EvalErr EvalOut
  | 0, r, pool => evalR noRefs full r pool
  | n + 1, r, pool =>
    evalR
      (fun id p =>
        match lookupBlock env id with
        | none => .error .unresolvedReference
        | some body => evalDepth env full n body p)
      full r pool

/-! ### Linking (spec sections 4.2 and 7) -/
mutual
/-- The block ids referenced anywhere in a rule tree. -/
def SRule.refs : SRule → List String
  | .courseSet _ => []
  | .group _ rs => SRuleList.refs rs
  | .maximum _ _ c => c.refs
  | .cond _ a b => a.refs ++ b.refs
  | .blockRef id _ => [id]

/-- The block ids referenced anywhere in a list of rule trees. -/
def SRuleList.refs : SRuleList → List String
  | .nil => []
  | .cons r rs => r.refs ++ SRuleList.refs rs
end

/-- Successors of a block in the reference graph. -/
def succs (env : List (String × SRule)) (id : String) : List String :=
  match lookupBlock env id with
  | none => []
  | some r => r.refs

/-- Whether some reference path of exactly `n` edges starts at `a`. -/
def hasPath (env : List (String × SRule)) : Nat → String → Bool
  | 0, _ => true
  | n + 1, a => (succs env a).any (fun b => hasPath env n b)

/-- The block ids of a block table. -/
def keysOf (env : List (String × SRule)) : List String := env.map Prod.fst

/-- Modelled from the spec: cycle detection over the `BlockReference`
edges.  A reference graph on `env.length` blocks contains a cycle
exactly when some block starts a path of `env.length + 1` edges. -/
def hasCycle (env : List (String × SRule)) : Bool :=
  (keysOf env).any (fun a => hasPath env (env.length + 1) a)

/-- Whether every referenced block id is present in the table. -/
def refsPresent (env : List (String × SRule)) : Bool :=
  env.all (fun p => p.2.refs.all (fun id => (lookupBlock env id).isSome))

/-- Modelled from the spec: the linker's error taxonomy,
`LinkError{missing-block | cycle-detected}`. -/
inductive LinkErr
  | missingBlock | cycleDetected
deriving DecidableEq, Repr

/-- Modelled from the spec: the linking pass over a parsed block set —
fails on a reference cycle or a missing reference target, before any
evaluation runs. -/
def link (env : List (String × SRule)) : Except LinkErr Unit :=
  if hasCycle env then .error .cycleDetected
  else if refsPresent env then .ok () else .error .missingBlock

/-- Modelled from the spec: the per-block audit result — satisfied
flag, per-node verdict tree and the list of unconsumed courses. -/
structure AuditResult where
  satisfied : Bool
  verdict : Verdict
  unconsumed : List Course

/-- Failure modes of the full pipeline. -/
inductive AuditErr
  | linkFailed (e : LinkErr)
  | blockNotFound
  | evalFailed (e : EvalErr)

/-- Evaluate one linked block body against a transcript, with the depth
budget `env.length` that linking guarantees sufficient. -/
def runEval (env : List (String × SRule)) (r : SRule) (t : Transcript) : Except EvalErr AuditResult :=
  (evalDepth env t env.length r t).map (fun out => ⟨out.1.vSat, out.1, consume t out.2⟩)

/-- The audit pipeline for one block of a block set: link the set, look
up the block, evaluate. -/
def auditOne (env : List (String × SRule)) (id : String) (t : Transcript) : Except AuditErr AuditResult :=
  match link env with
  | .error e => .error (.linkFailed e)
  | .ok () =>
    match lookupBlock env id with
    | none => .error .blockNotFound
    | some r => (runEval env r t).mapError .evalFailed

/-- A reference handler is conservative when every successful call
consumes a sub-multiset of the pool it was given. -/
def RefConservative (refE : RefHandler) : Prop :=
  ∀ id pool v c, refE id pool = .ok (v, c) → (↑c : Multiset Course) ≤ ↑pool

/-! ## Leaf credit sums and SHARED-free rules (for conservativity of
allocation across CourseSet leaves) -/
mutual
/-- Whether a rule tree contains no `SHARED` block reference. -/
def SRule.noShared : SRule → Bool
  | .courseSet _ => true
  | .group _ rs => rs.noShared
  | .maximum _ _ c => c.noShared
  | .cond _ a b => a.noShared && b.noShared
  | .blockRef _ pol => pol == .exclusive

/-- Whether a list of rule trees contains no `SHARED` block reference. -/
def SRuleList.noShared : SRuleList → Bool
  | .nil => true
  | .cons r rs => r.noShared && rs.noShared
end

/-- Whether every block body of a table is `SHARED`-free. -/
def EnvNoShared (env : List (String × SRule)) : Prop :=
  ∀ p ∈ env, SRule.noShared p.2 = true

mutual
/-- Total credits applied at the `CourseSet` leaves of a verdict. -/
def Verdict.leafCredits : Verdict → ℚ
  | .leaf _ applied _ => creditsSum applied
  | .node _ children => children.leafCredits

/-- Total credits applied at the `CourseSet` leaves of child verdicts. -/
def VerdictList.leafCredits : VerdictList → ℚ
  | .nil => 0
  | .cons v vs => v.leafCredits + vs.leafCredits
end

/-- A reference handler is leaf-exact on SHARED-free bodies when each
successful call returns a verdict whose leaf credits equal the credits
of the consumed list. -/
def RefLeafExact (refE : RefHandler) : Prop :=
  ∀ id pool v c, refE id pool = .ok (v, c) → v.leafCredits = creditsSum c

/-! ## Zero matching courses: a fully unsatisfied report, not an error -/
mutual
/-- Whether some `CourseSet` leaf of a rule tree could allocate the
course (its patterns and grade floor accept it). -/
def SRule.canUse : SRule → Course → Bool
  | .courseSet cs, c => cs.accepts c
  | .group _ rs, c => rs.canUse c
  | .maximum _ _ r, c => r.canUse c
  | .cond _ a b, c => a.canUse c || b.canUse c
  | .blockRef _ _, _ => false

/-- Whether some `CourseSet` leaf of a list of rule trees could
allocate the course. -/
def SRuleList.canUse : SRuleList → Course → Bool
  | .nil, _ => false
  | .cons r rs, c => r.canUse c || rs.canUse c
end

mutual
/-- Whether a verdict applies no courses anywhere and marks a leaf
satisfied only when its minimums are trivial. -/
def Verdict.emptyUnsat : Verdict → Bool
  | .leaf s applied cs =>
    applied.isEmpty && (!s || (cs.minCount == 0 && decide (cs.minCredits ≤ 0)))
  | .node _ children => children.emptyUnsat

/-- `Verdict.emptyUnsat` over child verdicts. -/
def VerdictList.emptyUnsat : VerdictList → Bool
  | .nil => true
  | .cons v vs => v.emptyUnsat && vs.emptyUnsat
end

/-- A reference handler returns empty, fully unsatisfied results on
sub-pools of the transcript. -/
def RefZero (refE : RefHandler) (full : Transcript) : Prop :=
  ∀ id pool v c, pool ⊆ full → refE id pool = .ok (v, c) →
    c = [] ∧ v.emptyUnsat = true

/-- One `BlockReference` edge of the reference graph: block `x` is in
the table and its rule tree references block `y`. -/
def refEdge (env : List (String × SRule)) (x y : String) : Prop :=
  ∃ r, lookupBlock env x = some r ∧ y ∈ r.refs

/-- The `BlockReference` edges contain the cycle
`a → l₀ → ⋯ → lₖ → a`. -/
def IsRefCycle (env : List (String × SRule)) (a : String) (l : List String) : Prop :=
  List.Chain (refEdge env) a (l ++ [a])

/-- The preference order as a proposition. -/
def CourseLEP (x y : Course) : Prop := courseLE x y = true

/-- A list sorted by the preference order. -/
abbrev SortedLE (l : List Course) : Prop := l.Pairwise CourseLEP

mutual
/-- The Conditional-free, Maximum-free, reference-free fragment of the
rule language: trees of `CourseSet` leaves and `Group` nodes only. -/
def SRule.simpleTree : SRule → Bool
  | .courseSet _ => true
  | .group _ rs => rs.simpleTree
  | .maximum _ _ _ => false
  | .cond _ _ _ => false
  | .blockRef _ _ => false

/-- `SRule.simpleTree` over children lists. -/
def SRuleList.simpleTree : SRuleList → Bool
  | .nil => true
  | .cons r rs => r.simpleTree && rs.simpleTree
end

/-! Concrete data for the C5 counterexample and the C7 scenario. -/
def mathA : Course := ⟨"MATH", 101, 3, .a, 1, false⟩

def extraE : Course := ⟨"ENGL", 101, 1, .a, 2, false⟩

/-- A conditional block: if total credits stay at most 3, a trivial
requirement applies, otherwise an unsatisfiable one. -/
def condBlock : SRule :=
  .cond ⟨.totalCredits, .le, 3⟩
    (.courseSet ⟨[], 0, 0, none⟩)
    (.courseSet ⟨[⟨.exact "ZZZ", ⟨1, 1⟩⟩], 1, 0, none⟩)

def maxM1 : Course := ⟨"M", 101, 3, .a, 2, false⟩

def maxM2 : Course := ⟨"M", 102, 2, .a, 3, false⟩

def maxM0 : Course := ⟨"M", 100, 4, .a, 1, false⟩

/-- A maximum block: at most 5 credits of M-courses, two required. -/
def maxBlock : SRule :=
  .maximum none (some 5) (.courseSet ⟨[⟨.exact "M", ⟨100, 199⟩⟩], 2, 0, none⟩)

def math101 : Course := ⟨"MATH", 101, 3, .a, 20203, false⟩

def math201 : Course := ⟨"MATH", 201, 3, .a, 20211, false⟩

def math150 : Course := ⟨"MATH", 150, 3, .a, 20213, false⟩

def mathT : Transcript := [math101, math201, math150]

def mathCS : CourseSetSpec := ⟨[⟨.exact "MATH", ⟨100, 199⟩⟩], 2, 0, none⟩

def envA : List (String × SRule) := [("A", .courseSet mathCS)]

def zzzR : SRule := .courseSet ⟨[⟨.exact "ZZZ", ⟨1, 1⟩⟩], 1, 0, none⟩

def simpleCS : SRule := .courseSet ⟨[⟨.exact "M", ⟨100, 199⟩⟩], 1, 0, none⟩

def envAB : List (String × SRule) :=
  [("A", .blockRef "B" .exclusive), ("B", .blockRef "A" .exclusive)]

/-! ## Basic lemmas about consumption and selection -/
theorem removeOne_eq_erase (a : Course) (l : List Course) : removeOne a l = l.erase a := by
  induction l with
  | nil => rfl
  | cons b t ih =>
    rw [removeOne, List.erase_cons]
    by_cases h : b = a
    · simp [h]
    · simp [h, ih]

theorem consume_eq_diff (pool sel : List Course) : consume pool sel = pool.diff sel := by
  induction sel generalizing pool with
  | nil => rfl
  | cons a s ih => rw [consume, List.diff_cons, ih, removeOne_eq_erase]

theorem coe_consume (pool sel : List Course) :
    (↑(consume pool sel) : Multiset Course) = ↑pool - ↑sel := by
  rw [consume_eq_diff, Multiset.coe_sub]

theorem insertSorted_perm (a : Course) (l : List Course) :
    (insertSorted a l).Perm (a :: l) := by
  induction l with
  | nil => simp [insertSorted]
  | cons b t ih =>
    rw [insertSorted]
    by_cases h : (courseLE a b && !courseLE b a) = true
    · simp [h]
    · simp only [h, if_false]
      exact (ih.cons b).trans (List.Perm.swap a b t)

theorem sortPool_go_perm (l : List Course) :
    ∀ acc : List Course, (l.foldl (fun acc c => insertSorted c acc) acc).Perm (acc ++ l) := by
  induction l with
  | nil => intro acc; simp
  | cons c rest ih =>
    intro acc
    rw [List.foldl_cons]
    refine (ih (insertSorted c acc)).trans ?_
    refine (List.Perm.append_right rest (insertSorted_perm c acc)).trans ?_
    exact List.perm_middle.symm

theorem sortPool_perm (l : List Course) : (sortPool l).Perm l := by
  simpa using sortPool_go_perm l []

theorem greedyGo_sublist (mc : Nat) (mcr : ℚ) (cnt : Nat) (acc : ℚ) (l : List Course) :
    (greedyGo mc mcr cnt acc l).Sublist l := by
  induction l generalizing cnt acc with
  | nil => simp [greedyGo]
  | cons c rest ih =>
    rw [greedyGo]
    by_cases h : mc ≤ cnt ∧ mcr ≤ acc
    · simp [h]
    · simp only [h, if_false]
      exact (ih _ _).cons₂ c

theorem selectCourses_le (cs : CourseSetSpec) (pool : List Course) :
    (↑(selectCourses cs pool) : Multiset Course) ≤ ↑pool := by
  have h1 : (selectCourses cs pool).Sublist (sortPool (pool.filter cs.accepts)) :=
    greedyGo_sublist _ _ _ _ _
  have h2 : (↑(selectCourses cs pool) : Multiset Course) ≤ ↑(sortPool (pool.filter cs.accepts)) :=
    Multiset.coe_le.mpr h1.subperm
  have h3 : (↑(sortPool (pool.filter cs.accepts)) : Multiset Course) = ↑(pool.filter cs.accepts) :=
    Multiset.coe_eq_coe.mpr (sortPool_perm _)
  have h4 : (↑(pool.filter cs.accepts) : Multiset Course) ≤ ↑pool :=
    Multiset.coe_le.mpr (List.filter_sublist pool).subperm
  rw [h3] at h2
  exact h2.trans h4

theorem capTrim_sublist (mc : Option Nat) (mcr : Option ℚ) (l : List Course) :
    (capTrim mc mcr l).Sublist l := by
  induction l with
  | nil => simp [capTrim]
  | cons c rest ih =>
    rw [capTrim]
    by_cases h : withinCap mc mcr (c :: rest) = true
    · simp [h]
    · simp only [h, if_false]
      exact ih.cons c

theorem except_bind_ok {ε α β : Type} (a : α) (f : α → Except ε β) :
    (Except.ok a : Except ε α) >>= f = f a := rfl

theorem except_bind_error {ε α β : Type} (e : ε) (f : α → Except ε β) :
    (Except.error e : Except ε α) >>= f = Except.error e := rfl

theorem except_ok_bind_inv {ε α β : Type} {e : Except ε α} {f : α → Except ε β} {b : β}
    (h : e >>= f = .ok b) : ∃ a, e = .ok a ∧ f a = .ok b := by
  cases e with
  | error err => rw [except_bind_error] at h; exact absurd h (by simp)
  | ok a => exact ⟨a, rfl, by rw [except_bind_ok] at h; exact h⟩

mutual
theorem evalR_consumed_le (refE : RefHandler) (h : RefConservative refE) (full : Transcript) :
    ∀ (r : SRule) (pool : List Course) (v : Verdict) (c : List Course),
      evalR refE full r pool = .ok (v, c) → (↑c : Multiset Course) ≤ ↑pool
  | .courseSet cs, pool, v, c, heq => by
    simp only [evalR] at heq
    cases heq
    exact selectCourses_le cs pool
  | .group m rs, pool, v, c, heq => by
    simp only [evalR] at heq
    obtain ⟨⟨vs1, c1⟩, h1, heq⟩ := except_ok_bind_inv heq
    simp only [Except.ok.injEq, Prod.mk.injEq] at heq
    obtain ⟨-, rfl⟩ := heq
    exact evalRList_consumed_le refE h full rs pool vs1 c1 h1
  | .maximum mc mcr child, pool, v, c, heq => by
    simp only [evalR] at heq
    obtain ⟨⟨v1, c1⟩, h1, heq⟩ := except_ok_bind_inv heq
    obtain ⟨⟨v2, c2⟩, h2, heq⟩ := except_ok_bind_inv heq
    simp only [Except.ok.injEq, Prod.mk.injEq] at heq
    obtain ⟨-, rfl⟩ := heq
    have hc2 : (↑c2 : Multiset Course) ≤ ↑((capTrim mc mcr c1.reverse).reverse) :=
      evalR_consumed_le refE h full child _ v2 c2 h2
    have hk : (↑((capTrim mc mcr c1.reverse).reverse) : Multiset Course) ≤ ↑c1 := by
      rw [Multiset.coe_reverse]
      calc (↑(capTrim mc mcr c1.reverse) : Multiset Course)
          ≤ ↑c1.reverse := Multiset.coe_le.mpr (capTrim_sublist _ _ _).subperm
        _ = ↑c1 := Multiset.coe_reverse c1
    have hc1 : (↑c1 : Multiset Course) ≤ ↑pool :=
      evalR_consumed_le refE h full child pool v1 c1 h1
    exact hc2.trans (hk.trans hc1)
  | .cond p rT rE, pool, v, c, heq => by
    simp only [evalR] at heq
    by_cases hp : p.holds full <;>
      simp only [hp, if_true, if_false, Bool.false_eq_true] at heq
    · obtain ⟨⟨v1, c1⟩, h1, heq⟩ := except_ok_bind_inv heq
      simp only [Except.ok.injEq, Prod.mk.injEq] at heq
      obtain ⟨-, rfl⟩ := heq
      exact evalR_consumed_le refE h full rT pool v1 c1 h1
    · obtain ⟨⟨v1, c1⟩, h1, heq⟩ := except_ok_bind_inv heq
      simp only [Except.ok.injEq, Prod.mk.injEq] at heq
      obtain ⟨-, rfl⟩ := heq
      exact evalR_consumed_le refE h full rE pool v1 c1 h1
  | .blockRef id pol, pool, v, c, heq => by
    simp only [evalR] at heq
    cases pol with
    | exclusive =>
      simp only at heq
      obtain ⟨⟨v1, c1⟩, h1, heq⟩ := except_ok_bind_inv heq
      simp only [Except.ok.injEq, Prod.mk.injEq] at heq
      obtain ⟨-, rfl⟩ := heq
      exact h id pool v1 c1 h1
    | shared =>
      simp only at heq
      obtain ⟨⟨v1, c1⟩, h1, heq⟩ := except_ok_bind_inv heq
      simp only [Except.ok.injEq, Prod.mk.injEq] at heq
      obtain ⟨-, rfl⟩ := heq
      exact zero_le _

theorem evalRList_consumed_le (refE : RefHandler) (h : RefConservative refE) (full : Transcript) :
    ∀ (rs : SRuleList) (pool : List Course) (vs : VerdictList) (c : List Course),
      evalRList refE full rs pool = .ok (vs, c) → (↑c : Multiset Course) ≤ ↑pool
  | .nil, pool, vs, c, heq => by
    simp only [evalRList] at heq
    cases heq
    exact zero_le _
  | .cons r rs, pool, vs, c, heq => by
    simp only [evalRList] at heq
    obtain ⟨⟨v1, c1⟩, h1, heq⟩ := except_ok_bind_inv heq
    obtain ⟨⟨vs2, c2⟩, h2, heq⟩ := except_ok_bind_inv heq
    simp only [Except.ok.injEq, Prod.mk.injEq] at heq
    obtain ⟨-, rfl⟩ := heq
    have hc1 : (↑c1 : Multiset Course) ≤ ↑pool :=
      evalR_consumed_le refE h full r pool v1 c1 h1
    have hc2 : (↑c2 : Multiset Course) ≤ ↑(consume pool c1) :=
      evalRList_consumed_le refE h full rs (consume pool c1) vs2 c2 h2
    rw [coe_consume] at hc2
    have h3 := (le_tsub_iff_left hc1).mp hc2
    simpa using h3
end

/-! ## Credit sums under sub-multisets and the Maximum ceiling -/
theorem creditsSum_append (l1 l2 : List Course) :
    creditsSum (l1 ++ l2) = creditsSum l1 + creditsSum l2 := by
  simp [creditsSum]

theorem creditsSum_nonneg {l : List Course} (h : NonnegCredits l) : 0 ≤ creditsSum l := by
  induction l with
  | nil => simp [creditsSum]
  | cons c t ih =>
    have h1 : 0 ≤ c.credits := h c (List.mem_cons_self c t)
    have h2 : 0 ≤ creditsSum t := ih (fun x hx => h x (List.mem_cons_of_mem c hx))
    simpa [creditsSum] using add_nonneg h1 h2

theorem nonneg_of_le {l1 l2 : List Course} (h : (↑l1 : Multiset Course) ≤ ↑l2)
    (hn : NonnegCredits l2) : NonnegCredits l1 := by
  intro c hc
  exact hn c (Multiset.subset_of_le h hc)

theorem creditsSum_le_of_le {l1 l2 : List Course} (h : (↑l1 : Multiset Course) ≤ ↑l2)
    (hn : NonnegCredits l2) : creditsSum l1 ≤ creditsSum l2 := by
  obtain ⟨u, hu⟩ := Multiset.le_iff_exists_add.mp h
  have hs : ((↑l2 : Multiset Course).map Course.credits).sum
      = ((↑l1 : Multiset Course).map Course.credits).sum + (u.map Course.credits).sum := by
    rw [hu, Multiset.map_add, Multiset.sum_add]
  have hl1 : ((↑l1 : Multiset Course).map Course.credits).sum = creditsSum l1 := by
    rw [Multiset.map_coe, Multiset.sum_coe]; rfl
  have hl2 : ((↑l2 : Multiset Course).map Course.credits).sum = creditsSum l2 := by
    rw [Multiset.map_coe, Multiset.sum_coe]; rfl
  have hun : 0 ≤ (u.map Course.credits).sum := by
    refine Multiset.sum_nonneg ?_
    intro x hx
    obtain ⟨c, hc, rfl⟩ := Multiset.mem_map.mp hx
    refine hn c ?_
    have : c ∈ (↑l2 : Multiset Course) := by rw [hu]; exact Multiset.mem_add.mpr (Or.inr hc)
    simpa using this
  rw [hl1, hl2] at hs
  linarith

theorem capTrim_within (mc : Option Nat) (mcr : Option ℚ)
    (hq : ∀ q, mcr = some q → 0 ≤ q) (l : List Course) :
    withinCap mc mcr (capTrim mc mcr l) = true := by
  induction l with
  | nil =>
    rw [capTrim, withinCap.eq_def]
    cases mc with
    | none =>
      cases hm : mcr with
      | none => rfl
      | some q => simp [creditsSum, hq q hm]
    | some n =>
      cases hm : mcr with
      | none => simp
      | some q => simp [creditsSum, hq q hm]
  | cons c rest ih =>
    rw [capTrim]
    by_cases h : withinCap mc mcr (c :: rest) = true
    · simp [h]
    · simpa [h] using ih

theorem withinCap_credits {mc : Option Nat} {q : ℚ} {l : List Course}
    (h : withinCap mc (some q) l = true) : creditsSum l ≤ q := by
  rw [withinCap.eq_def] at h
  cases mc with
  | none => simpa using h
  | some n => exact (by simpa using h : _ ∧ _).2

theorem creditsSum_reverse (l : List Course) : creditsSum l.reverse = creditsSum l := by
  simp [creditsSum, List.sum_reverse]

theorem lookupBlock_mem {env : List (String × SRule)} {id : String} {r : SRule}
    (h : lookupBlock env id = some r) : (id, r) ∈ env := by
  induction env with
  | nil => exact absurd h (by simp [lookupBlock])
  | cons p rest ih =>
    obtain ⟨n, body⟩ := p
    rw [lookupBlock] at h
    by_cases hn : n = id
    · simp only [hn, if_true] at h
      cases h
      subst hn
      exact List.mem_cons_self _ _
    · simp only [hn, if_false] at h
      exact List.mem_cons_of_mem _ (ih h)

/-- The unlinked reference handler is (vacuously) conservative. -/
theorem noRefs_conservative : RefConservative noRefs := by
  intro id pool v c h
  exact absurd h (by simp [noRefs])

/-- Consumption by `evalDepth` is a sub-multiset of the pool, for every
depth budget. -/
theorem evalDepth_consumed_le (env : List (String × SRule)) (full : Transcript) :
    ∀ (n : Nat) (r : SRule) (pool : List Course) (v : Verdict) (c : List Course),
      evalDepth env full n r pool = .ok (v, c) → (↑c : Multiset Course) ≤ ↑pool := by
  intro n
  induction n with
  | zero =>
    intro r pool v c h
    rw [evalDepth] at h
    exact evalR_consumed_le noRefs noRefs_conservative full r pool v c h
  | succ n ih =>
    intro r pool v c h
    rw [evalDepth] at h
    refine evalR_consumed_le _ ?_ full r pool v c h
    intro id p v1 c1 h1
    cases hl : lookupBlock env id with
    | none => simp [hl] at h1
    | some body =>
      simp only [hl] at h1
      exact ih body p v1 c1 h1

/-- The `Maximum` capping step at the `evalR` level: a successful
evaluation of a `Maximum` node with a credit ceiling consumes at most
the ceiling. -/
theorem evalR_maximum_cap (refE : RefHandler) (h : RefConservative refE)
    (full : Transcript) (mc : Option Nat) (q : ℚ) (child : SRule)
    (pool : List Course) (v : Verdict) (c : List Course)
    (hn : NonnegCredits pool) (hq : 0 ≤ q)
    (heq : evalR refE full (.maximum mc (some q) child) pool = .ok (v, c)) :
    creditsSum c ≤ q := by
  simp only [evalR] at heq
  obtain ⟨⟨v1, c1⟩, h1, heq⟩ := except_ok_bind_inv heq
  obtain ⟨⟨v2, c2⟩, h2, heq⟩ := except_ok_bind_inv heq
  simp only [Except.ok.injEq, Prod.mk.injEq] at heq
  obtain ⟨-, rfl⟩ := heq
  have hc2 : (↑c2 : Multiset Course) ≤ ↑((capTrim mc (some q) c1.reverse).reverse) :=
    evalR_consumed_le refE h full child _ v2 c2 h2
  have hc1 : (↑c1 : Multiset Course) ≤ ↑pool :=
    evalR_consumed_le refE h full child pool v1 c1 h1
  have hkept : (↑((capTrim mc (some q) c1.reverse).reverse) : Multiset Course) ≤ ↑pool := by
    have : (↑((capTrim mc (some q) c1.reverse).reverse) : Multiset Course) ≤ ↑c1 := by
      rw [Multiset.coe_reverse]
      calc (↑(capTrim mc (some q) c1.reverse) : Multiset Course)
          ≤ ↑c1.reverse := Multiset.coe_le.mpr (capTrim_sublist _ _ _).subperm
        _ = ↑c1 := Multiset.coe_reverse c1
    exact this.trans hc1
  have hwc : withinCap mc (some q) (capTrim mc (some q) c1.reverse) = true :=
    capTrim_within mc (some q) (by intro q2 hq2; cases hq2; exact hq) c1.reverse
  have hck : creditsSum (capTrim mc (some q) c1.reverse) ≤ q := withinCap_credits hwc
  have hk2 : creditsSum ((capTrim mc (some q) c1.reverse).reverse) ≤ q := by
    rw [creditsSum_reverse]; exact hck
  have := creditsSum_le_of_le hc2 (nonneg_of_le hkept hn)
  linarith

mutual
theorem evalR_leafCredits (refE : RefHandler) (h : RefLeafExact refE) (full : Transcript) :
    ∀ (r : SRule) (pool : List Course) (v : Verdict) (c : List Course),
      SRule.noShared r = true → evalR refE full r pool = .ok (v, c) →
      v.leafCredits = creditsSum c
  | .courseSet cs, pool, v, c, _, heq => by
    simp only [evalR] at heq
    cases heq
    rfl
  | .group m rs, pool, v, c, hns, heq => by
    simp only [evalR] at heq
    obtain ⟨⟨vs1, c1⟩, h1, heq⟩ := except_ok_bind_inv heq
    simp only [Except.ok.injEq, Prod.mk.injEq] at heq
    obtain ⟨rfl, rfl⟩ := heq
    rw [SRule.noShared] at hns
    exact evalRList_leafCredits refE h full rs pool vs1 c1 hns h1
  | .maximum mc mcr child, pool, v, c, hns, heq => by
    simp only [evalR] at heq
    obtain ⟨⟨v1, c1⟩, h1, heq⟩ := except_ok_bind_inv heq
    obtain ⟨⟨v2, c2⟩, h2, heq⟩ := except_ok_bind_inv heq
    simp only [Except.ok.injEq, Prod.mk.injEq] at heq
    obtain ⟨rfl, rfl⟩ := heq
    rw [SRule.noShared] at hns
    have := evalR_leafCredits refE h full child _ v2 c2 hns h2
    simp only [Verdict.leafCredits, VerdictList.leafCredits] at *
    linarith
  | .cond p rT rE, pool, v, c, hns, heq => by
    simp only [evalR] at heq
    rw [SRule.noShared, Bool.and_eq_true] at hns
    by_cases hp : p.holds full <;>
      simp only [hp, if_true, if_false, Bool.false_eq_true] at heq
    · obtain ⟨⟨v1, c1⟩, h1, heq⟩ := except_ok_bind_inv heq
      simp only [Except.ok.injEq, Prod.mk.injEq] at heq
      obtain ⟨rfl, rfl⟩ := heq
      have := evalR_leafCredits refE h full rT pool v1 c1 hns.1 h1
      simp only [Verdict.leafCredits, VerdictList.leafCredits] at *
      linarith
    · obtain ⟨⟨v1, c1⟩, h1, heq⟩ := except_ok_bind_inv heq
      simp only [Except.ok.injEq, Prod.mk.injEq] at heq
      obtain ⟨rfl, rfl⟩ := heq
      have := evalR_leafCredits refE h full rE pool v1 c1 hns.2 h1
      simp only [Verdict.leafCredits, VerdictList.leafCredits] at *
      linarith
  | .blockRef id pol, pool, v, c, hns, heq => by
    simp only [evalR] at heq
    rw [SRule.noShared] at hns
    cases pol with
    | exclusive =>
      simp only at heq
      obtain ⟨⟨v1, c1⟩, h1, heq⟩ := except_ok_bind_inv heq
      simp only [Except.ok.injEq, Prod.mk.injEq] at heq
      obtain ⟨rfl, rfl⟩ := heq
      have := h id pool v1 c1 h1
      simp only [Verdict.leafCredits, VerdictList.leafCredits]
      linarith
    | shared => simp at hns

theorem evalRList_leafCredits (refE : RefHandler) (h : RefLeafExact refE) (full : Transcript) :
    ∀ (rs : SRuleList) (pool : List Course) (vs : VerdictList) (c : List Course),
      SRuleList.noShared rs = true → evalRList refE full rs pool = .ok (vs, c) →
      vs.leafCredits = creditsSum c
  | .nil, pool, vs, c, _, heq => by
    rw [evalRList] at heq
    cases heq
    simp [VerdictList.leafCredits, creditsSum]
  | .cons r rs, pool, vs, c, hns, heq => by
    rw [evalRList] at heq
    rw [SRuleList.noShared, Bool.and_eq_true] at hns
    obtain ⟨⟨v1, c1⟩, h1, heq⟩ := except_ok_bind_inv heq
    obtain ⟨⟨vs2, c2⟩, h2, heq⟩ := except_ok_bind_inv heq
    simp only [Except.ok.injEq, Prod.mk.injEq] at heq
    obtain ⟨rfl, rfl⟩ := heq
    have e1 := evalR_leafCredits refE h full r pool v1 c1 hns.1 h1
    have e2 := evalRList_leafCredits refE h full rs (consume pool c1) vs2 c2 hns.2 h2
    rw [VerdictList.leafCredits, creditsSum_append, e1, e2]
end

/-- The unlinked reference handler is (vacuously) leaf-exact. -/
theorem noRefs_leafExact : RefLeafExact noRefs := by
  intro id pool v c h
  exact absurd h (by simp [noRefs])

/-- On a SHARED-free block table, `evalDepth` is leaf-exact for every
SHARED-free rule. -/
theorem evalDepth_leafCredits (env : List (String × SRule)) (hEnv : EnvNoShared env)
    (full : Transcript) :
    ∀ (n : Nat) (r : SRule) (pool : List Course) (v : Verdict) (c : List Course),
      SRule.noShared r = true → evalDepth env full n r pool = .ok (v, c) →
      v.leafCredits = creditsSum c := by
  intro n
  induction n with
  | zero =>
    intro r pool v c hns h
    rw [evalDepth] at h
    exact evalR_leafCredits noRefs noRefs_leafExact full r pool v c hns h
  | succ n ih =>
    intro r pool v c hns h
    rw [evalDepth] at h
    refine evalR_leafCredits _ ?_ full r pool v c hns h
    intro id p v1 c1 h1
    cases hl : lookupBlock env id with
    | none => simp [hl] at h1
    | some body =>
      simp only [hl] at h1
      refine ih body p v1 c1 ?_ h1
      exact hEnv (id, body) (lookupBlock_mem hl)

/-! ## Totality of evaluation on linked block sets (spec section 7) -/
mutual
theorem evalR_total (refE : RefHandler) (full : Transcript) :
    ∀ (r : SRule), (∀ id ∈ r.refs, ∀ pool : List Course, ∃ out, refE id pool = .ok out) →
      ∀ pool : List Course, ∃ out, evalR refE full r pool = .ok out
  | .courseSet cs, _, pool => by
    have hX : evalR refE full (.courseSet cs) pool =
        .ok (.leaf (csSat cs (selectCourses cs pool)) (selectCourses cs pool) cs,
          selectCourses cs pool) := by
      simp only [evalR]
    exact ⟨_, hX⟩
  | .group m rs, h, pool => by
    obtain ⟨⟨vs, c⟩, h1⟩ := evalRList_total refE full rs (by
      intro id hid pool2
      exact h id (by rw [SRule.refs]; exact hid) pool2) pool
    have hX : evalR refE full (.group m rs) pool = .ok (.node (modeSat m vs) vs, c) := by
      simp only [evalR, h1, except_bind_ok]
    exact ⟨_, hX⟩
  | .maximum mc mcr child, h, pool => by
    have hch : ∀ id ∈ child.refs, ∀ pool2 : List Course, ∃ out, refE id pool2 = .ok out := by
      intro id hid pool2
      exact h id (by rw [SRule.refs]; exact hid) pool2
    obtain ⟨⟨v1, c1⟩, h1⟩ := evalR_total refE full child hch pool
    obtain ⟨⟨v2, c2⟩, h2⟩ := evalR_total refE full child hch ((capTrim mc mcr c1.reverse).reverse)
    have hX : evalR refE full (.maximum mc mcr child) pool =
        .ok (.node v2.vSat (.cons v2 .nil), c2) := by
      simp only [evalR, h1, h2, except_bind_ok]
    exact ⟨_, hX⟩
  | .cond p rT rE, h, pool => by
    by_cases hp : p.holds full
    · obtain ⟨⟨v1, c1⟩, h1⟩ := evalR_total refE full rT (by
        intro id hid pool2
        refine h id ?_ pool2
        rw [SRule.refs]
        exact List.mem_append.mpr (Or.inl hid)) pool
      have hX : evalR refE full (.cond p rT rE) pool =
          .ok (.node v1.vSat (.cons v1 .nil), c1) := by
        simp only [evalR, hp, if_true, h1, except_bind_ok]
      exact ⟨_, hX⟩
    · obtain ⟨⟨v1, c1⟩, h1⟩ := evalR_total refE full rE (by
        intro id hid pool2
        refine h id ?_ pool2
        rw [SRule.refs]
        exact List.mem_append.mpr (Or.inr hid)) pool
      have hX : evalR refE full (.cond p rT rE) pool =
          .ok (.node v1.vSat (.cons v1 .nil), c1) := by
        simp only [evalR, hp, if_false, Bool.false_eq_true, h1, except_bind_ok]
      exact ⟨_, hX⟩
  | .blockRef id pol, h, pool => by
    have hid : id ∈ (SRule.blockRef id pol).refs := by
      rw [SRule.refs]; exact List.mem_singleton.mpr rfl
    cases pol with
    | exclusive =>
      obtain ⟨⟨v1, c1⟩, h1⟩ := h id hid pool
      have hX : evalR refE full (.blockRef id .exclusive) pool =
          .ok (.node v1.vSat (.cons v1 .nil), c1) := by
        simp only [evalR, h1, except_bind_ok]
      exact ⟨_, hX⟩
    | shared =>
      obtain ⟨⟨v1, c1⟩, h1⟩ := h id hid full
      have hX : evalR refE full (.blockRef id .shared) pool =
          .ok (.node v1.vSat (.cons v1 .nil), []) := by
        simp only [evalR, h1, except_bind_ok]
      exact ⟨_, hX⟩

theorem evalRList_total (refE : RefHandler) (full : Transcript) :
    ∀ (rs : SRuleList), (∀ id ∈ rs.refs, ∀ pool : List Course, ∃ out, refE id pool = .ok out) →
      ∀ pool : List Course, ∃ out, evalRList refE full rs pool = .ok out
  | .nil, _, pool => by
    have hX : evalRList refE full .nil pool = .ok (.nil, []) := by rw [evalRList]
    exact ⟨_, hX⟩
  | .cons r rs, h, pool => by
    obtain ⟨⟨v1, c1⟩, h1⟩ := evalR_total refE full r (by
      intro id hid pool2
      refine h id ?_ pool2
      rw [SRuleList.refs]
      exact List.mem_append.mpr (Or.inl hid)) pool
    obtain ⟨⟨vs2, c2⟩, h2⟩ := evalRList_total refE full rs (by
      intro id hid pool2
      refine h id ?_ pool2
      rw [SRuleList.refs]
      exact List.mem_append.mpr (Or.inr hid)) (consume pool c1)
    have hX : evalRList refE full (.cons r rs) pool = .ok (.cons v1 vs2, c1 ++ c2) := by
      simp only [evalRList, h1, h2, except_bind_ok]
    exact ⟨_, hX⟩
end

theorem refsPresent_lookup {env : List (String × SRule)} (hpres : refsPresent env = true)
    {id : String} {body : SRule} (hmem : (id, body) ∈ env) {id2 : String}
    (hid2 : id2 ∈ body.refs) : (lookupBlock env id2).isSome = true := by
  rw [refsPresent, List.all_eq_true] at hpres
  have := hpres (id, body) hmem
  rw [List.all_eq_true] at this
  exact this id2 hid2

/-- Evaluation with depth budget `n` succeeds whenever every referenced
block is present and no reference chain of `n` edges leaves the rule's
references. -/
theorem evalDepth_total (env : List (String × SRule)) (full : Transcript)
    (hpres : refsPresent env = true) :
    ∀ (n : Nat) (r : SRule),
      (∀ id ∈ r.refs, (lookupBlock env id).isSome = true ∧ hasPath env n id = false) →
      ∀ pool : List Course, ∃ out, evalDepth env full n r pool = .ok out := by
  intro n
  induction n with
  | zero =>
    intro r hr pool
    rw [evalDepth]
    refine evalR_total noRefs full r ?_ pool
    intro id hid pool2
    exact absurd (hr id hid).2 (by rw [hasPath]; simp)
  | succ n ih =>
    intro r hr pool
    rw [evalDepth]
    refine evalR_total _ full r ?_ pool
    intro id hid pool2
    obtain ⟨hsome, hpath⟩ := hr id hid
    cases hl : lookupBlock env id with
    | none => rw [hl] at hsome; exact absurd hsome (by simp)
    | some body =>
      have hb : ∀ id2 ∈ body.refs, (lookupBlock env id2).isSome = true ∧ hasPath env n id2 = false := by
        intro id2 hid2
        refine ⟨refsPresent_lookup hpres (lookupBlock_mem hl) hid2, ?_⟩
        rw [hasPath] at hpath
        have hsucc : id2 ∈ succs env id := by rw [succs, hl]; exact hid2
        have := List.any_eq_false.mp hpath id2 hsucc
        simpa using this
      obtain ⟨out, hout⟩ := ih body hb pool2
      exact ⟨out, by simp only [hl]; exact hout⟩

/-- A successful link means no cycle was found and all references are
present. -/
theorem link_ok_inv {env : List (String × SRule)} (h : link env = .ok ()) :
    hasCycle env = false ∧ refsPresent env = true := by
  rw [link] at h
  by_cases hc : hasCycle env = true
  · rw [if_pos hc] at h
    exact absurd h (by simp)
  · refine ⟨by simpa using hc, ?_⟩
    rw [if_neg hc] at h
    by_cases hp : refsPresent env = true
    · exact hp
    · rw [if_neg hp] at h
      exact absurd h (by simp)

theorem mem_keysOf {env : List (String × SRule)} {id : String} {r : SRule}
    (h : (id, r) ∈ env) : id ∈ keysOf env := by
  rw [keysOf]
  exact List.mem_map.mpr ⟨(id, r), h, rfl⟩

/-- After a successful link, evaluation of any block of the set, with
the depth budget `runEval` uses, succeeds for every transcript. -/
theorem link_ok_evalDepth_total {env : List (String × SRule)} (hlink : link env = .ok ())
    {id : String} {r : SRule} (hid : lookupBlock env id = some r)
    (t : Transcript) (pool : List Course) :
    ∃ out, evalDepth env t env.length r pool = .ok out := by
  obtain ⟨hcyc, hpres⟩ := link_ok_inv hlink
  refine evalDepth_total env t hpres env.length r ?_ pool
  intro id2 hid2
  refine ⟨refsPresent_lookup hpres (lookupBlock_mem hid) hid2, ?_⟩
  rw [hasCycle] at hcyc
  have hk : id ∈ keysOf env := mem_keysOf (lookupBlock_mem hid)
  have h1 := List.any_eq_false.mp hcyc id hk
  have h2 : hasPath env (env.length + 1) id = false := by simpa using h1
  rw [hasPath] at h2
  have hsucc : id2 ∈ succs env id := by rw [succs, hid]; exact hid2
  have := List.any_eq_false.mp h2 id2 hsucc
  simpa using this

theorem selectCourses_of_no_accept {cs : CourseSetSpec} {pool : List Course}
    (h : ∀ c ∈ pool, cs.accepts c = false) : selectCourses cs pool = [] := by
  have hf : pool.filter cs.accepts = [] :=
    List.filter_eq_nil_iff.mpr (fun a ha => by rw [h a ha]; simp)
  rw [selectCourses, hf]
  rfl

mutual
theorem evalR_zero (refE : RefHandler) (full : Transcript) (href : RefZero refE full) :
    ∀ (r : SRule) (pool : List Course) (v : Verdict) (c : List Course),
      (∀ course ∈ full, r.canUse course = false) → pool ⊆ full →
      evalR refE full r pool = .ok (v, c) → c = [] ∧ v.emptyUnsat = true
  | .courseSet cs, pool, v, c, hr, hpool, heq => by
    simp only [evalR] at heq
    have hsel : selectCourses cs pool = [] := by
      refine selectCourses_of_no_accept ?_
      intro course hc
      have := hr course (hpool hc)
      rw [SRule.canUse] at this
      exact this
    rw [hsel] at heq
    cases heq
    refine ⟨rfl, ?_⟩
    rw [Verdict.emptyUnsat]
    rw [csSat]
    simp only [List.isEmpty_nil, Bool.true_and]
    by_cases h0 : cs.minCount = 0
    · by_cases h1 : cs.minCredits ≤ 0
      · simp [h0, h1]
      · have : ¬ cs.minCredits ≤ creditsSum [] := by
          simpa [creditsSum] using h1
        simp [h0, h1, this]
    · have : ¬ cs.minCount ≤ List.length ([] : List Course) := by simpa using h0
      simp [this, h0]
  | .group m rs, pool, v, c, hr, hpool, heq => by
    simp only [evalR] at heq
    obtain ⟨⟨vs1, c1⟩, h1, heq⟩ := except_ok_bind_inv heq
    simp only [Except.ok.injEq, Prod.mk.injEq] at heq
    obtain ⟨rfl, rfl⟩ := heq
    have := evalRList_zero refE full href rs pool vs1 c1 (by
      intro course hc
      have := hr course hc
      rw [SRule.canUse] at this
      exact this) hpool h1
    exact ⟨this.1, by rw [Verdict.emptyUnsat]; exact this.2⟩
  | .maximum mc mcr child, pool, v, c, hr, hpool, heq => by
    simp only [evalR] at heq
    obtain ⟨⟨v1, c1⟩, h1, heq⟩ := except_ok_bind_inv heq
    obtain ⟨⟨v2, c2⟩, h2, heq⟩ := except_ok_bind_inv heq
    simp only [Except.ok.injEq, Prod.mk.injEq] at heq
    obtain ⟨rfl, rfl⟩ := heq
    have hrc : ∀ course ∈ full, child.canUse course = false := by
      intro course hc
      have := hr course hc
      rw [SRule.canUse] at this
      exact this
    obtain ⟨rfl, -⟩ := evalR_zero refE full href child pool v1 c1 hrc hpool h1
    have hkept : (capTrim mc mcr (List.reverse [])).reverse = [] := rfl
    rw [hkept] at h2
    obtain ⟨rfl, hv2⟩ := evalR_zero refE full href child [] v2 c2 hrc
      (by intro x hx; cases hx) h2
    refine ⟨rfl, ?_⟩
    rw [Verdict.emptyUnsat, VerdictList.emptyUnsat, VerdictList.emptyUnsat]
    simp [hv2]
  | .cond p rT rE, pool, v, c, hr, hpool, heq => by
    simp only [evalR] at heq
    have hor : ∀ course ∈ full, rT.canUse course = false ∧ rE.canUse course = false := by
      intro course hc
      have := hr course hc
      rw [SRule.canUse] at this
      exact Bool.or_eq_false_iff.mp this
    by_cases hp : p.holds full <;>
      simp only [hp, if_true, if_false, Bool.false_eq_true] at heq
    · obtain ⟨⟨v1, c1⟩, h1, heq⟩ := except_ok_bind_inv heq
      simp only [Except.ok.injEq, Prod.mk.injEq] at heq
      obtain ⟨rfl, rfl⟩ := heq
      obtain ⟨rfl, hv1⟩ := evalR_zero refE full href rT pool v1 c1
        (fun course hc => (hor course hc).1) hpool h1
      refine ⟨rfl, ?_⟩
      rw [Verdict.emptyUnsat, VerdictList.emptyUnsat, VerdictList.emptyUnsat]
      simp [hv1]
    · obtain ⟨⟨v1, c1⟩, h1, heq⟩ := except_ok_bind_inv heq
      simp only [Except.ok.injEq, Prod.mk.injEq] at heq
      obtain ⟨rfl, rfl⟩ := heq
      obtain ⟨rfl, hv1⟩ := evalR_zero refE full href rE pool v1 c1
        (fun course hc => (hor course hc).2) hpool h1
      refine ⟨rfl, ?_⟩
      rw [Verdict.emptyUnsat, VerdictList.emptyUnsat, VerdictList.emptyUnsat]
      simp [hv1]
  | .blockRef id pol, pool, v, c, hr, hpool, heq => by
    simp only [evalR] at heq
    cases pol with
    | exclusive =>
      simp only at heq
      obtain ⟨⟨v1, c1⟩, h1, heq⟩ := except_ok_bind_inv heq
      simp only [Except.ok.injEq, Prod.mk.injEq] at heq
      obtain ⟨rfl, rfl⟩ := heq
      obtain ⟨rfl, hv1⟩ := href id pool v1 c1 hpool h1
      refine ⟨rfl, ?_⟩
      rw [Verdict.emptyUnsat, VerdictList.emptyUnsat, VerdictList.emptyUnsat]
      simp [hv1]
    | shared =>
      simp only at heq
      obtain ⟨⟨v1, c1⟩, h1, heq⟩ := except_ok_bind_inv heq
      simp only [Except.ok.injEq, Prod.mk.injEq] at heq
      obtain ⟨rfl, rfl⟩ := heq
      obtain ⟨-, hv1⟩ := href id full v1 c1 (fun x hx => hx) h1
      refine ⟨rfl, ?_⟩
      rw [Verdict.emptyUnsat, VerdictList.emptyUnsat, VerdictList.emptyUnsat]
      simp [hv1]

theorem evalRList_zero (refE : RefHandler) (full : Transcript) (href : RefZero refE full) :
    ∀ (rs : SRuleList) (pool : List Course) (vs : VerdictList) (c : List Course),
      (∀ course ∈ full, rs.canUse course = false) → pool ⊆ full →
      evalRList refE full rs pool = .ok (vs, c) → c = [] ∧ vs.emptyUnsat = true
  | .nil, pool, vs, c, _, _, heq => by
    rw [evalRList] at heq
    cases heq
    exact ⟨rfl, rfl⟩
  | .cons r rs, pool, vs, c, hr, hpool, heq => by
    rw [evalRList] at heq
    obtain ⟨⟨v1, c1⟩, h1, heq⟩ := except_ok_bind_inv heq
    obtain ⟨⟨vs2, c2⟩, h2, heq⟩ := except_ok_bind_inv heq
    simp only [Except.ok.injEq, Prod.mk.injEq] at heq
    obtain ⟨rfl, rfl⟩ := heq
    have hor : ∀ course ∈ full, r.canUse course = false ∧ rs.canUse course = false := by
      intro course hc
      have := hr course hc
      rw [SRuleList.canUse] at this
      exact Bool.or_eq_false_iff.mp this
    obtain ⟨rfl, hv1⟩ := evalR_zero refE full href r pool v1 c1
      (fun course hc => (hor course hc).1) hpool h1
    have hc2 : consume pool [] = pool := rfl
    rw [hc2] at h2
    obtain ⟨rfl, hvs2⟩ := evalRList_zero refE full href rs pool vs2 c2
      (fun course hc => (hor course hc).2) hpool h2
    refine ⟨rfl, ?_⟩
    rw [VerdictList.emptyUnsat]
    simp [hv1, hvs2]
end

/-- The unlinked reference handler (vacuously) returns empty results. -/
theorem noRefs_zero (full : Transcript) : RefZero noRefs full := by
  intro id pool v c hp h
  exact absurd h (by simp [noRefs])

/-- `evalDepth` returns an empty, fully unsatisfied result when no
course of the transcript is usable by the rule or by any block body. -/
theorem evalDepth_zero (env : List (String × SRule)) (full : Transcript)
    (hEnv : ∀ p ∈ env, ∀ course ∈ full, SRule.canUse p.2 course = false) :
    ∀ (n : Nat) (r : SRule) (pool : List Course) (v : Verdict) (c : List Course),
      (∀ course ∈ full, r.canUse course = false) → pool ⊆ full →
      evalDepth env full n r pool = .ok (v, c) → c = [] ∧ v.emptyUnsat = true := by
  intro n
  induction n with
  | zero =>
    intro r pool v c hr hpool h
    rw [evalDepth] at h
    exact evalR_zero noRefs full (noRefs_zero full) r pool v c hr hpool h
  | succ n ih =>
    intro r pool v c hr hpool h
    rw [evalDepth] at h
    refine evalR_zero _ full ?_ r pool v c hr hpool h
    intro id p v1 c1 hpsub h1
    cases hl : lookupBlock env id with
    | none => simp [hl] at h1
    | some body =>
      simp only [hl] at h1
      exact ih body p v1 c1 (hEnv (id, body) (lookupBlock_mem hl)) hpsub h1

theorem chain_mem_next {R : String → String → Prop} :
    ∀ (l : List String) (a z : String), List.Chain R a (l ++ [z]) →
      ∀ x ∈ a :: l, ∃ y ∈ (a :: l) ++ [z], R x y := by
  intro l
  induction l with
  | nil =>
    intro a z hch x hx
    rw [List.nil_append, List.chain_cons] at hch
    rw [List.mem_singleton] at hx
    subst hx
    exact ⟨z, by simp, hch.1⟩
  | cons b l2 ih =>
    intro a z hch x hx
    rw [List.cons_append, List.chain_cons] at hch
    rcases List.mem_cons.mp hx with rfl | hx2
    · exact ⟨b, by simp, hch.1⟩
    · obtain ⟨y, hy, hr⟩ := ih b z hch.2 x hx2
      refine ⟨y, ?_, hr⟩
      rcases List.mem_append.mp hy with h1 | h2
      · exact List.mem_append.mpr (Or.inl (List.mem_cons_of_mem a h1))
      · exact List.mem_append.mpr (Or.inr h2)

theorem closed_hasPath (env : List (String × SRule)) (S : List String)
    (hS : ∀ x ∈ S, ∃ y ∈ S, refEdge env x y) :
    ∀ (n : Nat), ∀ x ∈ S, hasPath env n x = true := by
  intro n
  induction n with
  | zero => intro x _; rw [hasPath]
  | succ n ih =>
    intro x hx
    obtain ⟨y, hy, r, hlook, hyref⟩ := hS x hx
    rw [hasPath]
    refine List.any_eq_true.mpr ⟨y, ?_, ih y hy⟩
    rw [succs, hlook]
    exact hyref

/-- Completeness of cycle detection: a reference cycle makes
`hasCycle` true. -/
theorem hasCycle_of_refCycle {env : List (String × SRule)} {a : String} {l : List String}
    (h : IsRefCycle env a l) : hasCycle env = true := by
  have hclosed : ∀ x ∈ a :: l, ∃ y ∈ a :: l, refEdge env x y := by
    intro x hx
    obtain ⟨y, hy, hr⟩ := chain_mem_next l a a h x hx
    refine ⟨y, ?_, hr⟩
    rcases List.mem_append.mp hy with h1 | h2
    · exact h1
    · rw [List.mem_singleton] at h2
      subst h2
      exact List.mem_cons_self _ _
  have hka : a ∈ keysOf env := by
    obtain ⟨y, hy, r, hlook, -⟩ := hclosed a (List.mem_cons_self a l)
    exact mem_keysOf (lookupBlock_mem hlook)
  have hpath : hasPath env (env.length + 1) a = true :=
    closed_hasPath env (a :: l) hclosed (env.length + 1) a (List.mem_cons_self a l)
  rw [hasCycle]
  exact List.any_eq_true.mpr ⟨a, hka, hpath⟩

theorem courseLE_iff (x y : Course) :
    courseLE x y = true ↔ x.term < y.term ∨ (x.term = y.term ∧ y.credits ≤ x.credits) := by
  rw [courseLE]
  simp [Bool.or_eq_true, Bool.and_eq_true, decide_eq_true_eq]

theorem courseLE_total (x y : Course) : courseLE x y = true ∨ courseLE y x = true := by
  rw [courseLE_iff, courseLE_iff]
  rcases Nat.lt_trichotomy x.term y.term with h | h | h
  · exact Or.inl (Or.inl h)
  · rcases le_total x.credits y.credits with hc | hc
    · exact Or.inr (Or.inr ⟨h.symm, hc⟩)
    · exact Or.inl (Or.inr ⟨h, hc⟩)
  · exact Or.inr (Or.inl h)

theorem courseLE_trans {x y z : Course} (h1 : courseLE x y = true)
    (h2 : courseLE y z = true) : courseLE x z = true := by
  rw [courseLE_iff] at h1 h2 ⊢
  rcases h1 with h1 | ⟨h1t, h1c⟩ <;> rcases h2 with h2 | ⟨h2t, h2c⟩
  · exact Or.inl (h1.trans h2)
  · exact Or.inl (h2t ▸ h1)
  · exact Or.inl (h1t ▸ h2)
  · exact Or.inr ⟨h1t.trans h2t, h2c.trans h1c⟩

/-- Strict preference: `x` comes strictly before `y`. -/
theorem courseLT_not_le {x y : Course}
    (h : (courseLE x y && !courseLE y x) = true) : courseLE y x = false := by
  rw [Bool.and_eq_true] at h
  simpa using h.2

theorem insertSorted_sorted {l : List Course} (hs : SortedLE l) (a : Course) :
    SortedLE (insertSorted a l) := by
  induction l with
  | nil =>
    rw [insertSorted]
    exact List.pairwise_singleton _ _
  | cons b t ih =>
    rw [insertSorted]
    obtain ⟨hs1, hs2⟩ := List.pairwise_cons.mp hs
    by_cases h : (courseLE a b && !courseLE b a) = true
    · rw [if_pos h]
      rw [Bool.and_eq_true] at h
      refine List.pairwise_cons.mpr ⟨?_, List.pairwise_cons.mpr ⟨hs1, hs2⟩⟩
      intro x hx
      rcases List.mem_cons.mp hx with rfl | hx2
      · exact h.1
      · exact courseLE_trans h.1 (hs1 x hx2)
    · rw [if_neg h]
      have hba : courseLE b a = true := by
        rcases courseLE_total a b with hab | hba2
        · by_cases hba3 : courseLE b a = true
          · exact hba3
          · have hf : courseLE b a = false := by simpa using hba3
            exact absurd (by rw [hab, hf]; rfl) h
        · exact hba2
      refine List.pairwise_cons.mpr ⟨?_, ih hs2⟩
      intro x hx
      have hperm := insertSorted_perm a t
      have hx2 : x ∈ a :: t := hperm.mem_iff.mp hx
      rcases List.mem_cons.mp hx2 with rfl | hx3
      · exact hba
      · exact hs1 x hx3

theorem sublist_insertSorted (a : Course) (l : List Course) : l.Sublist (insertSorted a l) := by
  induction l with
  | nil => simp [insertSorted]
  | cons b t ih =>
    rw [insertSorted]
    by_cases h : (courseLE a b && !courseLE b a) = true
    · rw [if_pos h]
      exact (List.Sublist.refl (b :: t)).cons a
    · rw [if_neg h]
      exact ih.cons₂ b

theorem insertSorted_eq_cons {a : Course} {l : List Course}
    (h : ∀ x ∈ l, (courseLE a x && !courseLE x a) = true) :
    insertSorted a l = a :: l := by
  cases l with
  | nil => rfl
  | cons b t =>
    rw [insertSorted, if_pos (h b (List.mem_cons_self b t))]

theorem insertSorted_mono {l1 l2 : List Course} (h : l1.Sublist l2) (hs : SortedLE l2)
    (a : Course) : (insertSorted a l1).Sublist (insertSorted a l2) := by
  induction h with
  | slnil => exact List.Sublist.refl _
  | cons b hsub ih =>
    rename_i t1 t2
    obtain ⟨hs1, hs2⟩ := List.pairwise_cons.mp hs
    rw [insertSorted]
    by_cases hab : (courseLE a b && !courseLE b a) = true
    · rw [if_pos hab]
      have hstrict : ∀ x ∈ t1, (courseLE a x && !courseLE x a) = true := by
        intro x hx
        have hbx : courseLE b x = true := hs1 x (hsub.subset hx)
        rw [Bool.and_eq_true] at hab ⊢
        refine ⟨courseLE_trans hab.1 hbx, ?_⟩
        by_cases hxa : courseLE x a = true
        · have hba : courseLE b a = true := courseLE_trans hbx hxa
          rw [hba] at hab
          simpa using hab.2
        · simpa using hxa
      rw [insertSorted_eq_cons hstrict]
      exact (hsub.cons b).cons₂ a
    · rw [if_neg hab]
      exact (ih hs2).cons b
  | cons₂ b hsub ih =>
    rename_i t1 t2
    obtain ⟨hs1, hs2⟩ := List.pairwise_cons.mp hs
    rw [insertSorted, insertSorted]
    by_cases hab : (courseLE a b && !courseLE b a) = true
    · rw [if_pos hab, if_pos hab]
      exact (hsub.cons₂ b).cons₂ a
    · rw [if_neg hab, if_neg hab]
      exact (ih hs2).cons₂ b

theorem sortPool_go_sorted (l : List Course) :
    ∀ acc : List Course, SortedLE acc →
      SortedLE (l.foldl (fun acc c => insertSorted c acc) acc) := by
  induction l with
  | nil => intro acc h; simpa using h
  | cons c rest ih =>
    intro acc h
    rw [List.foldl_cons]
    exact ih (insertSorted c acc) (insertSorted_sorted h c)

theorem sortPool_sorted (l : List Course) : SortedLE (sortPool l) :=
  sortPool_go_sorted l [] List.Pairwise.nil

theorem sortPool_go_mono {l1 l2 : List Course} (h : l1.Sublist l2) :
    ∀ acc1 acc2 : List Course, acc1.Sublist acc2 → SortedLE acc2 →
      (l1.foldl (fun acc c => insertSorted c acc) acc1).Sublist
        (l2.foldl (fun acc c => insertSorted c acc) acc2) := by
  induction h with
  | slnil => intro acc1 acc2 hacc _; simpa using hacc
  | cons b hsub ih =>
    intro acc1 acc2 hacc hs
    rw [List.foldl_cons]
    refine ih acc1 (insertSorted b acc2) (hacc.trans (sublist_insertSorted b acc2)) ?_
    exact insertSorted_sorted hs b
  | cons₂ b hsub ih =>
    intro acc1 acc2 hacc hs
    rw [List.foldl_cons, List.foldl_cons]
    exact ih (insertSorted b acc1) (insertSorted b acc2)
      (insertSorted_mono hacc hs b) (insertSorted_sorted hs b)

theorem sortPool_mono {l1 l2 : List Course} (h : l1.Sublist l2) :
    (sortPool l1).Sublist (sortPool l2) :=
  sortPool_go_mono h [] [] (List.Sublist.refl []) List.Pairwise.nil

/-! ## Monotonicity machinery: greedy consumption -/
theorem greedyGo_param_mono (mc : Nat) (mcr : ℚ) :
    ∀ (l : List Course) (cnt cnt' : Nat) (acc acc' : ℚ), cnt ≤ cnt' → acc ≤ acc' →
      (greedyGo mc mcr cnt' acc' l).Sublist (greedyGo mc mcr cnt acc l) := by
  intro l
  induction l with
  | nil => intro cnt cnt' acc acc' _ _; rw [greedyGo, greedyGo]
  | cons c rest ih =>
    intro cnt cnt' acc acc' hcnt hacc
    rw [greedyGo, greedyGo]
    by_cases hstop : mc ≤ cnt ∧ mcr ≤ acc
    · have hstop' : mc ≤ cnt' ∧ mcr ≤ acc' :=
        ⟨hstop.1.trans hcnt, hstop.2.trans hacc⟩
      rw [if_pos hstop, if_pos hstop']
    · rw [if_neg hstop]
      by_cases hstop' : mc ≤ cnt' ∧ mcr ≤ acc'
      · rw [if_pos hstop']
        exact List.nil_sublist _
      · rw [if_neg hstop']
        exact (ih (cnt + 1) (cnt' + 1) (acc + c.credits) (acc' + c.credits)
          (Nat.succ_le_succ hcnt) (by linarith)).cons₂ c

theorem greedyGo_sublist_bound (mc : Nat) (mcr : ℚ) :
    ∀ {S1 S2 : List Course}, S1.Sublist S2 → NonnegCredits S2 → ∀ (cnt : Nat) (acc : ℚ),
      (↑(greedyGo mc mcr cnt acc S2) : Multiset Course) ≤
        ↑(greedyGo mc mcr cnt acc S1) + ((↑S2 : Multiset Course) - ↑S1) := by
  intro S1 S2 h
  induction h with
  | slnil => intro _ cnt acc; rw [greedyGo]; simp
  | cons a hsub ih =>
    rename_i t1 t2
    intro hn cnt acc
    have hnt2 : NonnegCredits t2 := fun x hx => hn x (List.mem_cons_of_mem a hx)
    have ha : 0 ≤ a.credits := hn a (List.mem_cons_self a t2)
    rw [Multiset.le_iff_count]
    intro x
    rw [greedyGo]
    by_cases hstop : mc ≤ cnt ∧ mcr ≤ acc
    · rw [if_pos hstop]
      simp
    · rw [if_neg hstop]
      have hih := Multiset.le_iff_count.mp (ih hnt2 (cnt + 1) (acc + a.credits)) x
      have hpar : (greedyGo mc mcr (cnt + 1) (acc + a.credits) t1).Sublist
          (greedyGo mc mcr cnt acc t1) :=
        greedyGo_param_mono mc mcr t1 cnt (cnt + 1) acc (acc + a.credits)
          (Nat.le_succ cnt) (by linarith)
      have hparc := Multiset.le_iff_count.mp (Multiset.coe_le.mpr hpar.subperm) x
      have hsubc := Multiset.le_iff_count.mp (Multiset.coe_le.mpr hsub.subperm) x
      by_cases hx : x = a
      · subst hx
        simp only [← Multiset.cons_coe, Multiset.count_cons, Multiset.count_add,
          Multiset.count_sub, eq_self_iff_true, if_true] at hih ⊢
        omega
      · simp only [← Multiset.cons_coe, Multiset.count_cons, Multiset.count_add,
          Multiset.count_sub, if_neg hx] at hih ⊢
        omega
  | cons₂ a hsub ih =>
    rename_i t1 t2
    intro hn cnt acc
    have hnt2 : NonnegCredits t2 := fun x hx => hn x (List.mem_cons_of_mem a hx)
    rw [Multiset.le_iff_count]
    intro x
    rw [greedyGo, greedyGo]
    by_cases hstop : mc ≤ cnt ∧ mcr ≤ acc
    · rw [if_pos hstop, if_pos hstop]
      simp
    · rw [if_neg hstop, if_neg hstop]
      have hih := Multiset.le_iff_count.mp (ih hnt2 (cnt + 1) (acc + a.credits)) x
      have hsubc := Multiset.le_iff_count.mp (Multiset.coe_le.mpr hsub.subperm) x
      by_cases hx : x = a
      · subst hx
        simp only [← Multiset.cons_coe, Multiset.count_cons, Multiset.count_add,
          Multiset.count_sub, eq_self_iff_true, if_true] at hih ⊢
        omega
      · simp only [← Multiset.cons_coe, Multiset.count_cons, Multiset.count_add,
          Multiset.count_sub, if_neg hx] at hih ⊢
        omega

/-! ## Characterising CourseSet satisfaction by pool totals -/
theorem creditsSum_perm {l1 l2 : List Course} (h : l1.Perm l2) :
    creditsSum l1 = creditsSum l2 :=
  (h.map Course.credits).sum_eq

theorem greedyGo_meets (mc : Nat) (mcr : ℚ) :
    ∀ (l : List Course) (cnt : Nat) (acc : ℚ),
      mc ≤ cnt + l.length → mcr ≤ acc + creditsSum l →
      mc ≤ cnt + (greedyGo mc mcr cnt acc l).length ∧
      mcr ≤ acc + creditsSum (greedyGo mc mcr cnt acc l) := by
  intro l
  induction l with
  | nil => intro cnt acc h1 h2; rw [greedyGo]; exact ⟨h1, h2⟩
  | cons c rest ih =>
    intro cnt acc h1 h2
    rw [greedyGo]
    by_cases hstop : mc ≤ cnt ∧ mcr ≤ acc
    · rw [if_pos hstop]
      constructor
      · simpa using hstop.1
      · simpa [creditsSum] using hstop.2
    · rw [if_neg hstop]
      have hsum : creditsSum (c :: rest) = c.credits + creditsSum rest := by
        simp [creditsSum]
      have ihh := ih (cnt + 1) (acc + c.credits)
        (by simpa [Nat.add_comm, Nat.add_left_comm, Nat.add_assoc] using h1)
        (by rw [hsum] at h2; linarith)
      refine ⟨by simpa [Nat.add_comm, Nat.add_left_comm, Nat.add_assoc] using ihh.1, ?_⟩
      have := ihh.2
      have hsum2 : creditsSum (c :: greedyGo mc mcr (cnt + 1) (acc + c.credits) rest)
          = c.credits + creditsSum (greedyGo mc mcr (cnt + 1) (acc + c.credits) rest) := by
        simp [creditsSum]
      rw [hsum2]
      linarith

theorem csSat_iff (cs : CourseSetSpec) (sel : List Course) :
    csSat cs sel = true ↔
      cs.minCount ≤ sel.length ∧ cs.minCredits ≤ creditsSum sel := by
  rw [csSat]
  simp [Bool.and_eq_true, decide_eq_true_eq]

/-- A `CourseSet` leaf is satisfied exactly when the matching portion of
the pool meets both minimums, whatever the selection order. -/
theorem csSat_select_iff (cs : CourseSetSpec) (pool : List Course)
    (hn : NonnegCredits pool) :
    csSat cs (selectCourses cs pool) = true ↔
      (cs.minCount ≤ (pool.filter cs.accepts).length ∧
       cs.minCredits ≤ creditsSum (pool.filter cs.accepts)) := by
  set F := pool.filter cs.accepts with hF
  have hperm : (sortPool F).Perm F := sortPool_perm F
  have hlen : (sortPool F).length = F.length := hperm.length_eq
  have hsum : creditsSum (sortPool F) = creditsSum F := creditsSum_perm hperm
  have hnF : NonnegCredits F := fun c hc => hn c (List.mem_of_mem_filter hc)
  have hnS : NonnegCredits (sortPool F) := fun c hc => hnF c (hperm.subset hc)
  rw [csSat_iff]
  constructor
  · rintro ⟨hc1, hc2⟩
    have hsub : (selectCourses cs pool).Sublist (sortPool F) := greedyGo_sublist _ _ _ _ _
    have hlen2 : (selectCourses cs pool).length ≤ F.length := by
      calc (selectCourses cs pool).length ≤ (sortPool F).length := hsub.length_le
        _ = F.length := hlen
    have hsum2 : creditsSum (selectCourses cs pool) ≤ creditsSum F := by
      calc creditsSum (selectCourses cs pool)
          ≤ creditsSum (sortPool F) :=
            creditsSum_le_of_le (Multiset.coe_le.mpr hsub.subperm) hnS
        _ = creditsSum F := hsum
    exact ⟨hc1.trans hlen2, hc2.trans hsum2⟩
  · rintro ⟨hc1, hc2⟩
    have := greedyGo_meets cs.minCount cs.minCredits (sortPool F) 0 0
      (by simpa [hlen] using hc1) (by simpa [hsum] using hc2)
    rw [selectCourses, ← hF]
    constructor
    · simpa using this.1
    · simpa using this.2

/-! ## Monotonicity machinery: remaining pools -/
theorem filter_mono_pred {l : List Course} {p q : Course → Bool}
    (h : ∀ x ∈ l, p x = true → q x = true) : (l.filter p).Sublist (l.filter q) := by
  induction l with
  | nil => simp
  | cons a t ih =>
    have ih2 := ih (fun x hx => h x (List.mem_cons_of_mem a hx))
    have ha := h a (List.mem_cons_self a t)
    rw [List.filter_cons, List.filter_cons]
    by_cases hp : p a = true
    · rw [if_pos hp, if_pos (ha hp)]
      exact ih2.cons₂ a
    · rw [if_neg hp]
      by_cases hq : q a = true
      · rw [if_pos hq]
        exact ih2.cons a
      · rw [if_neg hq]
        exact ih2

theorem consume_eq_filter {pool : List Course} (hnd : pool.Nodup) (sel : List Course) :
    consume pool sel = pool.filter (fun x => decide (x ∉ sel)) := by
  rw [consume_eq_diff]
  exact List.Nodup.diff_eq_filter hnd

/-- The core remaining-pool fact: when the larger run consumes at most
the smaller run's selection plus the extra courses, the smaller run's
remaining pool embeds into the larger run's. -/
theorem consume_mono {pool1 pool2 : List Course} (h : pool1.Sublist pool2)
    (hnd : pool2.Nodup) {sel1 sel2 : List Course}
    (hbound : (↑sel2 : Multiset Course) ≤ ↑sel1 + ((↑pool2 : Multiset Course) - ↑pool1)) :
    (consume pool1 sel1).Sublist (consume pool2 sel2) := by
  have hnd1 : pool1.Nodup := h.nodup hnd
  rw [consume_eq_filter hnd1, consume_eq_filter hnd]
  have hstep : ∀ x ∈ pool1, x ∉ sel1 → x ∉ sel2 := by
    intro x hx hns1 hxs2
    have hcount := Multiset.le_iff_count.mp hbound x
    rw [Multiset.count_add, Multiset.count_sub, Multiset.coe_count, Multiset.coe_count,
      Multiset.coe_count, Multiset.coe_count] at hcount
    have h1 : List.count x sel1 = 0 := List.count_eq_zero.mpr hns1
    have h2 : 0 < List.count x sel2 := List.count_pos_iff.mpr hxs2
    have h3 : List.count x pool1 = 1 := by
      have hle := List.nodup_iff_count_le_one.mp hnd1 x
      have hge := List.count_pos_iff.mpr hx
      omega
    have h4 : List.count x pool2 = 1 := by
      have hle := List.nodup_iff_count_le_one.mp hnd x
      have hge := List.count_pos_iff.mpr (h.subset hx)
      omega
    omega
  refine List.Sublist.trans ?_ ((List.Sublist.filter _) h)
  refine filter_mono_pred ?_
  intro x hx hp
  rw [decide_eq_true_eq] at hp ⊢
  exact hstep x hx hp

theorem consume_append (pool c1 c2 : List Course) :
    consume pool (c1 ++ c2) = consume (consume pool c1) c2 := by
  rw [consume_eq_diff, consume_eq_diff, consume_eq_diff, List.diff_append]

theorem countSat_le_len : ∀ (vs : VerdictList), vs.countSat ≤ vs.len
  | .nil => by rw [VerdictList.countSat, VerdictList.len]
  | .cons v vs => by
    rw [VerdictList.countSat, VerdictList.len]
    have ih := countSat_le_len vs
    by_cases h : v.vSat = true
    · rw [if_pos h]; omega
    · rw [if_neg h]; omega

theorem modeSat_mono {m : GroupMode} {vs1 vs2 : VerdictList}
    (hlen : vs1.len = vs2.len) (hcnt : vs1.countSat ≤ vs2.countSat)
    (h : modeSat m vs1 = true) : modeSat m vs2 = true := by
  cases m with
  | all =>
    rw [modeSat] at h ⊢
    rw [beq_iff_eq] at h ⊢
    have h2 := countSat_le_len vs2
    omega
  | any =>
    rw [modeSat] at h ⊢
    rw [decide_eq_true_eq] at h ⊢
    omega
  | nOf k =>
    rw [modeSat] at h ⊢
    rw [decide_eq_true_eq] at h ⊢
    omega

mutual
theorem evalR_mono (refE1 refE2 : RefHandler) (h1c : RefConservative refE1)
    (h2c : RefConservative refE2) (full1 full2 : Transcript) :
    ∀ (r : SRule), SRule.simpleTree r = true →
    ∀ (pool1 pool2 : List Course), pool1.Sublist pool2 → pool2.Nodup → NonnegCredits pool2 →
    ∃ v1 c1 v2 c2,
      evalR refE1 full1 r pool1 = .ok (v1, c1) ∧
      evalR refE2 full2 r pool2 = .ok (v2, c2) ∧
      (v1.vSat = true → v2.vSat = true) ∧
      (consume pool1 c1).Sublist (consume pool2 c2) ∧
      (↑c2 : Multiset Course) ≤ ↑c1 + ((↑pool2 : Multiset Course) - ↑pool1)
  | .courseSet cs, _, pool1, pool2, hsub, hnd, hn => by
    have hFsub : (pool1.filter cs.accepts).Sublist (pool2.filter cs.accepts) :=
      (List.Sublist.filter _) hsub
    have hSsub : (sortPool (pool1.filter cs.accepts)).Sublist
        (sortPool (pool2.filter cs.accepts)) := sortPool_mono hFsub
    have hnF2 : NonnegCredits (pool2.filter cs.accepts) :=
      fun c hc => hn c (List.mem_of_mem_filter hc)
    have hnS2 : NonnegCredits (sortPool (pool2.filter cs.accepts)) :=
      fun c hc => hnF2 c ((sortPool_perm _).subset hc)
    have hS1 : (↑(sortPool (pool1.filter cs.accepts)) : Multiset Course)
        = ↑(pool1.filter cs.accepts) := Multiset.coe_eq_coe.mpr (sortPool_perm _)
    have hS2 : (↑(sortPool (pool2.filter cs.accepts)) : Multiset Course)
        = ↑(pool2.filter cs.accepts) := Multiset.coe_eq_coe.mpr (sortPool_perm _)
    have hbS : (↑(selectCourses cs pool2) : Multiset Course) ≤
        ↑(selectCourses cs pool1) +
          ((↑(pool2.filter cs.accepts) : Multiset Course) - ↑(pool1.filter cs.accepts)) := by
      rw [selectCourses, selectCourses, ← hS1, ← hS2]
      exact greedyGo_sublist_bound _ _ hSsub hnS2 0 0
    have hbound : (↑(selectCourses cs pool2) : Multiset Course) ≤
        ↑(selectCourses cs pool1) + ((↑pool2 : Multiset Course) - ↑pool1) := by
      rw [Multiset.le_iff_count]
      intro x
      have hb := Multiset.le_iff_count.mp hbS x
      simp only [Multiset.count_add, Multiset.count_sub, Multiset.coe_count] at hb ⊢
      have hcnt := hsub.count_le x
      by_cases hx : cs.accepts x = true
      · rw [List.count_filter hx, List.count_filter hx] at hb
        omega
      · have h01 : List.count x (pool1.filter cs.accepts) = 0 :=
          List.count_eq_zero.mpr (fun hmem => hx (List.of_mem_filter hmem))
        have h02 : List.count x (pool2.filter cs.accepts) = 0 :=
          List.count_eq_zero.mpr (fun hmem => hx (List.of_mem_filter hmem))
        rw [h01, h02] at hb
        omega
    have hsat : csSat cs (selectCourses cs pool1) = true →
        csSat cs (selectCourses cs pool2) = true := by
      intro hs
      have hn1 : NonnegCredits pool1 := fun c hc => hn c (hsub.subset hc)
      have htot := (csSat_select_iff cs pool1 hn1).mp hs
      refine (csSat_select_iff cs pool2 hn).mpr ?_
      refine ⟨htot.1.trans hFsub.length_le, ?_⟩
      exact htot.2.trans (creditsSum_le_of_le (Multiset.coe_le.mpr hFsub.subperm) hnF2)
    refine ⟨.leaf (csSat cs (selectCourses cs pool1)) (selectCourses cs pool1) cs,
      selectCourses cs pool1,
      .leaf (csSat cs (selectCourses cs pool2)) (selectCourses cs pool2) cs,
      selectCourses cs pool2, ?_, ?_, ?_, ?_, hbound⟩
    · simp only [evalR]
    · simp only [evalR]
    · intro h
      rw [Verdict.vSat] at h ⊢
      exact hsat h
    · exact consume_mono hsub hnd hbound
  | .group m rs, hsimp, pool1, pool2, hsub, hnd, hn => by
    rw [SRule.simpleTree] at hsimp
    obtain ⟨vs1, c1, vs2, c2, he1, he2, hlen, hcnt, hrem, hbound⟩ :=
      evalRList_mono refE1 refE2 h1c h2c full1 full2 rs hsimp pool1 pool2 hsub hnd hn
    refine ⟨.node (modeSat m vs1) vs1, c1, .node (modeSat m vs2) vs2, c2, ?_, ?_, ?_, hrem, hbound⟩
    · simp only [evalR, he1, except_bind_ok]
    · simp only [evalR, he2, except_bind_ok]
    · intro h
      rw [Verdict.vSat] at h ⊢
      exact modeSat_mono hlen hcnt h
  | .maximum mc mcr child, hsimp, pool1, pool2, hsub, hnd, hn => by
    rw [SRule.simpleTree] at hsimp
    exact absurd hsimp (by simp)
  | .cond p rT rE, hsimp, pool1, pool2, hsub, hnd, hn => by
    rw [SRule.simpleTree] at hsimp
    exact absurd hsimp (by simp)
  | .blockRef id pol, hsimp, pool1, pool2, hsub, hnd, hn => by
    rw [SRule.simpleTree] at hsimp
    exact absurd hsimp (by simp)

theorem evalRList_mono (refE1 refE2 : RefHandler) (h1c : RefConservative refE1)
    (h2c : RefConservative refE2) (full1 full2 : Transcript) :
    ∀ (rs : SRuleList), SRuleList.simpleTree rs = true →
    ∀ (pool1 pool2 : List Course), pool1.Sublist pool2 → pool2.Nodup → NonnegCredits pool2 →
    ∃ vs1 c1 vs2 c2,
      evalRList refE1 full1 rs pool1 = .ok (vs1, c1) ∧
      evalRList refE2 full2 rs pool2 = .ok (vs2, c2) ∧
      vs1.len = vs2.len ∧ vs1.countSat ≤ vs2.countSat ∧
      (consume pool1 c1).Sublist (consume pool2 c2) ∧
      (↑c2 : Multiset Course) ≤ ↑c1 + ((↑pool2 : Multiset Course) - ↑pool1)
  | .nil, _, pool1, pool2, hsub, hnd, hn => by
    refine ⟨.nil, [], .nil, [], by rw [evalRList], by rw [evalRList], rfl, le_refl _, ?_, ?_⟩
    · simpa only [consume] using hsub
    · simp
  | .cons r rs, hsimp, pool1, pool2, hsub, hnd, hn => by
    rw [SRuleList.simpleTree, Bool.and_eq_true] at hsimp
    obtain ⟨v1, c1, v2, c2, he1, he2, hvsat, hrem1, hbound1⟩ :=
      evalR_mono refE1 refE2 h1c h2c full1 full2 r hsimp.1 pool1 pool2 hsub hnd hn
    have hq2sub : (consume pool2 c2).Sublist pool2 := by
      rw [consume_eq_diff]; exact List.diff_sublist pool2 c2
    have hndq : (consume pool2 c2).Nodup := hq2sub.nodup hnd
    have hnq : NonnegCredits (consume pool2 c2) := fun c hc => hn c (hq2sub.subset hc)
    obtain ⟨vs1, cr1, vs2, cr2, hf1, hf2, hlen, hcnt, hrem2, hbound2⟩ :=
      evalRList_mono refE1 refE2 h1c h2c full1 full2 rs hsimp.2
        (consume pool1 c1) (consume pool2 c2) hrem1 hndq hnq
    have hc1le : (↑c1 : Multiset Course) ≤ ↑pool1 :=
      evalR_consumed_le refE1 h1c full1 r pool1 v1 c1 he1
    have hc2le : (↑c2 : Multiset Course) ≤ ↑pool2 :=
      evalR_consumed_le refE2 h2c full2 r pool2 v2 c2 he2
    have hboundT : (↑(c2 ++ cr2) : Multiset Course) ≤
        ↑(c1 ++ cr1) + ((↑pool2 : Multiset Course) - ↑pool1) := by
      have hq1 : (↑(consume pool1 c1) : Multiset Course) = ↑pool1 - ↑c1 := coe_consume _ _
      have hq2 : (↑(consume pool2 c2) : Multiset Course) = ↑pool2 - ↑c2 := coe_consume _ _
      rw [hq1, hq2] at hbound2
      rw [Multiset.le_iff_count]
      intro x
      have hA := Multiset.le_iff_count.mp hbound1 x
      have hB := Multiset.le_iff_count.mp hbound2 x
      have hA1 := Multiset.le_iff_count.mp hc1le x
      have hA2 := Multiset.le_iff_count.mp hc2le x
      have hP := Multiset.le_iff_count.mp (Multiset.coe_le.mpr hsub.subperm) x
      simp only [← Multiset.coe_add, Multiset.count_add, Multiset.count_sub] at hA hB ⊢
      omega
    refine ⟨.cons v1 vs1, c1 ++ cr1, .cons v2 vs2, c2 ++ cr2, ?_, ?_, ?_, ?_, ?_, hboundT⟩
    · simp only [evalRList, he1, hf1, except_bind_ok]
    · simp only [evalRList, he2, hf2, except_bind_ok]
    · rw [VerdictList.len, VerdictList.len, hlen]
    · rw [VerdictList.countSat, VerdictList.countSat]
      have hif : (if v1.vSat = true then 1 else 0) ≤ (if v2.vSat = true then 1 else 0) := by
        by_cases h : v1.vSat = true
        · rw [if_pos h, if_pos (hvsat h)]
        · rw [if_neg h]
          omega
      omega
    · rw [consume_append, consume_append]
      exact hrem2
end

/-- The reference handler that `evalDepth` installs is conservative. -/
theorem evalDepth_handler_conservative (env : List (String × SRule)) (full : Transcript)
    (n : Nat) :
    RefConservative (fun id p =>
      match lookupBlock env id with
      | none => .error .unresolvedReference
      | some body => evalDepth env full n body p) := by
  intro id p v c h
  cases hl : lookupBlock env id with
  | none => simp [hl] at h
  | some body =>
    simp only [hl] at h
    exact evalDepth_consumed_le env full n body p v c h

/-- C1: for every linked block rule tree and every transcript,
evaluation is total — after a successful link, every block of the set
evaluates to an `AuditResult` and never fails (first conjunct; the
unresolved-reference failure is only reachable when the linking pass is
skipped, since a successful link certifies presence and acyclicity of
all references); and a transcript none of whose courses is usable by
any `CourseSet` leaf yields a fully unsatisfied report with nothing
consumed, not an error (second conjunct). -/
theorem claim_C1_evaluation_total :
    (∀ (env : List (String × SRule)) (id : String) (r : SRule) (t : Transcript),
      link env = .ok () → lookupBlock env id = some r →
      ∃ res : AuditResult, runEval env r t = .ok res) ∧
    (∀ (env : List (String × SRule)) (n : Nat) (r : SRule) (t : Transcript)
       (v : Verdict) (c : List Course),
      (∀ p ∈ env, ∀ course ∈ t, SRule.canUse p.2 course = false) →
      (∀ course ∈ t, SRule.canUse r course = false) →
      evalDepth env t n r t = .ok (v, c) →
      c = [] ∧ v.emptyUnsat = true ∧ consume t c = t) := by
  constructor
  · intro env id r t hlink hid
    obtain ⟨⟨v, c⟩, hout⟩ := link_ok_evalDepth_total hlink hid t t
    refine ⟨⟨v.vSat, v, consume t c⟩, ?_⟩
    rw [runEval, hout]
    rfl
  · intro env n r t v c hEnv hr heq
    obtain ⟨h1, h2⟩ := evalDepth_zero env t hEnv n r t v c hr (fun x hx => hx) heq
    subst h1
    exact ⟨rfl, h2, rfl⟩

/-- C2: absent SHARED references, the total credits allocated across
all `CourseSet` leaves in one evaluation run never exceed the total
credits of the transcript pool. -/
theorem claim_C2_conservative_allocation
    (env : List (String × SRule)) (r : SRule) (t : Transcript) (n : Nat)
    (v : Verdict) (c : List Course)
    (hEnv : EnvNoShared env) (hr : SRule.noShared r = true)
    (hn : NonnegCredits t)
    (heq : evalDepth env t n r t = .ok (v, c)) :
    Verdict.leafCredits v ≤ creditsSum t := by
  have h1 : v.leafCredits = creditsSum c := evalDepth_leafCredits env hEnv t n r t v c hr heq
  have h2 : (↑c : Multiset Course) ≤ ↑t := evalDepth_consumed_le env t n r t v c heq
  rw [h1]
  exact creditsSum_le_of_le h2 hn

/-- C3: evaluation is deterministic — two audit runs of the same
`(Block, Transcript)` pair produce identical results: same satisfied
flag, same per-node verdict tree, same unconsumed list. -/
theorem claim_C3_deterministic (env : List (String × SRule)) (id : String)
    (t : Transcript) (r1 r2 : AuditResult)
    (h1 : auditOne env id t = .ok r1) (h2 : auditOne env id t = .ok r2) :
    r1.satisfied = r2.satisfied ∧ r1.verdict = r2.verdict ∧
      r1.unconsumed = r2.unconsumed := by
  rw [h1] at h2
  cases h2
  exact ⟨rfl, rfl, rfl⟩

/-- C4: after the capping step of a `Maximum` node with a credit
ceiling, the credits consumed by the child never exceed the ceiling. -/
theorem claim_C4_maximum_cap
    (env : List (String × SRule)) (full : Transcript) (n : Nat)
    (mc : Option Nat) (q : ℚ) (child : SRule) (pool : List Course)
    (v : Verdict) (c : List Course)
    (hn : NonnegCredits pool) (hq : 0 ≤ q)
    (heq : evalDepth env full n (.maximum mc (some q) child) pool = .ok (v, c)) :
    creditsSum c ≤ q := by
  cases n with
  | zero =>
    rw [evalDepth] at heq
    exact evalR_maximum_cap noRefs noRefs_conservative full mc q child pool v c hn hq heq
  | succ n =>
    rw [evalDepth] at heq
    exact evalR_maximum_cap _ (evalDepth_handler_conservative env full n)
      full mc q child pool v c hn hq heq

/-- C6: a block set whose `BlockReference` edges form a cycle fails the
linking pass with `cycle-detected`, and the audit pipeline for any
block of the set reports exactly that link failure — evaluation is
never invoked. -/
theorem claim_C6_cycle_link_error (env : List (String × SRule)) (a : String)
    (l : List String) (h : IsRefCycle env a l) :
    link env = .error .cycleDetected ∧
    ∀ (id : String) (t : Transcript),
      auditOne env id t = .error (.linkFailed .cycleDetected) := by
  have hc := hasCycle_of_refCycle h
  have hlink : link env = .error .cycleDetected := by rw [link, if_pos hc]
  refine ⟨hlink, ?_⟩
  intro id t
  rw [auditOne, hlink]

/-- C5 (amended): for rule trees built from `CourseSet` and `Group`
nodes only, and transcripts of distinct course records with
non-negative credits, appending a course preserves satisfaction. -/
theorem claim_C5_amended_monotone
    (env : List (String × SRule)) (n : Nat) (r : SRule) (t : Transcript) (course : Course)
    (hsimp : SRule.simpleTree r = true)
    (hnd : (t ++ [course]).Nodup) (hn : NonnegCredits (t ++ [course]))
    (v1 : Verdict) (c1 : List Course) (v2 : Verdict) (c2 : List Course)
    (he1 : evalDepth env t n r t = .ok (v1, c1))
    (he2 : evalDepth env (t ++ [course]) n r (t ++ [course]) = .ok (v2, c2))
    (hsat : v1.vSat = true) : v2.vSat = true := by
  have hsub : t.Sublist (t ++ [course]) := List.sublist_append_left t [course]
  cases n with
  | zero =>
    rw [evalDepth] at he1 he2
    obtain ⟨w1, d1, w2, d2, hw1, hw2, hws, -, -⟩ :=
      evalR_mono noRefs noRefs noRefs_conservative noRefs_conservative
        t (t ++ [course]) r hsimp t (t ++ [course]) hsub hnd hn
    rw [he1] at hw1
    rw [he2] at hw2
    simp only [Except.ok.injEq, Prod.mk.injEq] at hw1 hw2
    obtain ⟨rfl, -⟩ := hw1
    obtain ⟨rfl, -⟩ := hw2
    exact hws hsat
  | succ n =>
    rw [evalDepth] at he1 he2
    obtain ⟨w1, d1, w2, d2, hw1, hw2, hws, -, -⟩ :=
      evalR_mono _ _ (evalDepth_handler_conservative env t n)
        (evalDepth_handler_conservative env (t ++ [course]) n)
        t (t ++ [course]) r hsimp t (t ++ [course]) hsub hnd hn
    rw [he1] at hw1
    rw [he2] at hw2
    simp only [Except.ok.injEq, Prod.mk.injEq] at hw1 hw2
    obtain ⟨rfl, -⟩ := hw1
    obtain ⟨rfl, -⟩ := hw2
    exact hws hsat

/-- C5 counterexample: block satisfaction is not monotone in the
transcript as claimed.  A `Conditional` block satisfied on `[mathA]`
becomes unsatisfied when `extraE` is appended (the aggregate predicate
flips), and a `Maximum` block satisfied on `[maxM1, maxM2]` becomes
unsatisfied when `maxM0` is appended (the cap releases a needed
course). -/
theorem claim_C5_counterexample :
    ((evalDepth [] [mathA] 0 condBlock [mathA]).map (fun out => out.1.vSat)
        = .ok true ∧
      (evalDepth [] ([mathA] ++ [extraE]) 0 condBlock ([mathA] ++ [extraE])).map
          (fun out => out.1.vSat) = .ok false) ∧
    ((evalDepth [] [maxM1, maxM2] 0 maxBlock [maxM1, maxM2]).map (fun out => out.1.vSat)
        = .ok true ∧
      (evalDepth [] ([maxM1, maxM2] ++ [maxM0]) 0 maxBlock
          ([maxM1, maxM2] ++ [maxM0])).map (fun out => out.1.vSat) = .ok false) := by
  refine ⟨⟨?_, ?_⟩, ⟨?_, ?_⟩⟩ <;>
    norm_num [evalDepth, evalR, condBlock, maxBlock, mathA, extraE, maxM0, maxM1, maxM2,
      Predicate.holds, Agg.value, creditsSum, selectCourses, sortPool, insertSorted,
      courseLE, greedyGo, csSat, CourseSetSpec.accepts, CoursePattern.matches,
      SubjectPat.matches, gradeOK, capTrim, withinCap, Verdict.vSat, Except.map,
      noRefs, except_bind_ok, consume, removeOne]

/-- C7: the scenario block `CourseSet(subject=MATH, number=100-199,
min_count=2)` on the transcript [MATH101/2020F, MATH201/2021W,
MATH150/2021F] consumes exactly MATH101 and MATH150 in term order,
reports satisfied, and leaves MATH201 unconsumed. -/
theorem claim_C7_scenario :
    runEval [] (.courseSet mathCS) mathT =
      .ok ⟨true, .leaf true [math101, math150] mathCS, [math201]⟩ := by
  norm_num [runEval, evalDepth, evalR, mathCS, mathT, math101, math201, math150,
    selectCourses, sortPool, insertSorted, courseLE, greedyGo, csSat, creditsSum,
    CourseSetSpec.accepts, CoursePattern.matches, SubjectPat.matches, gradeOK,
    Verdict.vSat, Except.map, noRefs, consume, removeOne]

/-- C8: `getErrorMessages` is a total function of its input (it never
throws), and on any input that is not Axios-like, not an `Error`
instance, and has no `message` property it returns exactly
`["An unknown error occurred."]`. -/
theorem claim_C8_unknown_error (e : JsError)
    (h1 : e.isAxiosErrorFlag = false) (h2 : e.ctorName ≠ some "AxiosError")
    (h3 : e.hasRequest = false) (h4 : e.isErrorInstance = false)
    (h5 : e.message = none) :
    getErrorMessages e = ["An unknown error occurred."] := by
  have h2b : (e.ctorName == some "AxiosError") = false := by
    simpa using h2
  rw [getErrorMessages]
  simp [h1, h2b, h3, h4, h5]

theorem claim_C8_witness :
    getErrorMessages ⟨false, none, false, none, none, false, false, none⟩
      = ["An unknown error occurred."] :=
  claim_C8_unknown_error ⟨false, none, false, none, none, false, false, none⟩
    rfl (by simp) rfl rfl rfl

/-- C9 counterexample: a present, empty-string operation name is a
string and is not missing, so the claimed behaviour lower-cases it to
the empty string, but the generator returns `"operation"` (the
JavaScript guard `!name` also catches the falsy empty string). -/
theorem claim_C9_counterexample :
    methodName (some "") none = "operation" ∧
    methodNameClaimed (some "") none = "" ∧
    ("operation" : String) ≠ "" := by
  exact ⟨rfl, by decide, by decide⟩

/-- C9 (amended): the generator returns `"operation"` when the name is
missing, not a string, or empty; otherwise it removes the service name
from the front when the service is nonempty and the name starts with it
case-insensitively, and lower-cases the first character. -/
theorem claim_C9_amended :
    (∀ sv, methodName none sv = "operation") ∧
    (∀ sv, methodName (some "") sv = "operation") ∧
    (∀ n : String, n ≠ "" → methodName (some n) none = lowerFirst n) ∧
    (∀ n s : String, n ≠ "" → s ≠ "" →
      (toLowerStr s).data.isPrefixOf (toLowerStr n).data = true →
      methodName (some n) (some s) = lowerFirst (String.mk (n.data.drop s.data.length))) ∧
    (∀ n s : String, n ≠ "" →
      (s = "" ∨ (toLowerStr s).data.isPrefixOf (toLowerStr n).data = false) →
      methodName (some n) (some s) = lowerFirst n) := by
  refine ⟨fun sv => rfl, ?_, ?_, ?_, ?_⟩
  · intro sv
    simp only [methodName.eq_def]
    simp
  · intro n hn
    simp only [methodName.eq_def]
    simp [hn]
  · intro n s hn hs hp
    simp only [methodName.eq_def]
    simp [hn, hs, hp]
  · intro n s hn hd
    simp only [methodName.eq_def]
    rcases hd with rfl | hd
    · simp [hn]
    · simp [hn, hd]

theorem claim_C9_witness :
    methodName (some "AuthLogin") (some "Auth") = "login" ∧
    methodName (some "Status") none = "status" := by
  constructor
  · have h := (claim_C9_amended.2.2.2.1) "AuthLogin" "Auth"
      (by decide) (by decide) (by decide)
    rw [h]
    decide
  · have h := (claim_C9_amended.2.2.1) "Status" (by decide)
    rw [h]
    decide

theorem length_joinAll_firstChars (ws : List String) :
    (joinAll (ws.map firstCharStr)).length ≤ ws.length := by
  induction ws with
  | nil => simp [joinAll]
  | cons w rest ih =>
    rw [List.map_cons, joinAll, String.length_append]
    have hw : (firstCharStr w).length ≤ 1 := by
      rw [firstCharStr]
      cases w.data with
      | nil => simp
      | cons c cs => simp [String.singleton]
    rw [List.length_cons]
    omega

theorem jsUpperChar_length_le (c : Char) : (jsUpperChar c).length ≤ 3 := by
  rw [jsUpperChar]
  cases hf : specialUpper.find? (fun p => p.1 == c) with
  | none => simp
  | some p =>
    have hm : p ∈ specialUpper := List.mem_of_find?_eq_some hf
    have hall : ∀ q ∈ specialUpper, q.2.length ≤ 3 := by decide
    exact hall p hm

theorem flatten_upper_length_le (l : List Char) :
    ((l.map jsUpperChar).flatten).length ≤ 3 * l.length := by
  induction l with
  | nil => simp
  | cons c t ih =>
    rw [List.map_cons, List.flatten_cons, List.length_append, List.length_cons]
    have hc := jsUpperChar_length_le c
    omega

theorem toUpperStr_length_le (s : String) : (toUpperStr s).length ≤ 3 * s.length := by
  rw [toUpperStr]
  show ((s.data.map jsUpperChar).flatten).length ≤ 3 * s.data.length
  exact flatten_upper_length_le s.data

/-- C10 counterexample: JavaScript upper-casing is one-to-many under
the Unicode full case mapping, so the claimed two-character bound
fails: on the input whose first chunk is the sharp s, the result is
`"SSX"`, three characters long. -/
theorem claim_C10_counterexample :
    getInitials "\u00DF x" = "SSX" ∧ (getInitials "\u00DF x").length = 3 ∧
      ¬ ((getInitials "\u00DF x").length ≤ 2) := by
  refine ⟨?_, ?_, ?_⟩ <;> decide

/-- C10 (amended): `getInitials` returns the upper-cased (Unicode full
case mapping) concatenation of the first characters of at most the
first two space-separated chunks of the input; that concatenation has
at most two characters before upper-casing and each character expands
to at most three, so the result never exceeds six characters; the
empty-string input yields the empty string. -/
theorem claim_C10_amended_initials :
    (∀ s : String, (getInitials s).length ≤ 6) ∧ getInitials "" = "" := by
  constructor
  · intro s
    rw [getInitials]
    have h1 : (toUpperStr (joinAll (((splitOnSpace s).take 2).map firstCharStr))).length
        ≤ 3 * (joinAll (((splitOnSpace s).take 2).map firstCharStr)).length :=
      toUpperStr_length_le _
    have h2 := length_joinAll_firstChars ((splitOnSpace s).take 2)
    have h3 : ((splitOnSpace s).take 2).length ≤ 2 := by
      rw [List.length_take]
      omega
    omega
  · rfl

theorem claim_C1_witness :
    (∃ res : AuditResult, runEval envA (.courseSet mathCS) mathT = .ok res) ∧
    (([] : List Course) = [] ∧
      (Verdict.leaf false [] ⟨[⟨.exact "ZZZ", ⟨1, 1⟩⟩], 1, 0, none⟩).emptyUnsat = true ∧
      consume [mathA] [] = [mathA]) := by
  constructor
  · exact claim_C1_evaluation_total.1 envA "A" (.courseSet mathCS) mathT rfl rfl
  · refine claim_C1_evaluation_total.2 [] 0 zzzR [mathA]
      (.leaf false [] ⟨[⟨.exact "ZZZ", ⟨1, 1⟩⟩], 1, 0, none⟩) [] ?_ ?_ ?_
    · intro p hp
      simp at hp
    · intro course hc
      rw [List.mem_singleton] at hc
      subst hc
      decide
    · norm_num [evalDepth, evalR, zzzR, mathA, selectCourses, sortPool, insertSorted,
        greedyGo, csSat, creditsSum, CourseSetSpec.accepts, CoursePattern.matches,
        SubjectPat.matches, gradeOK, noRefs]

theorem claim_C2_witness :
    Verdict.leafCredits (.leaf true [math101, math150] mathCS) ≤ creditsSum mathT := by
  refine claim_C2_conservative_allocation [] (.courseSet mathCS) mathT 0
    (.leaf true [math101, math150] mathCS) [math101, math150] ?_ ?_ ?_ ?_
  · intro p hp
    simp at hp
  · decide
  · intro c hc
    rw [mathT] at hc
    simp only [List.mem_cons, List.not_mem_nil, or_false] at hc
    rcases hc with rfl | rfl | rfl
    · rw [math101]; norm_num
    · rw [math201]; norm_num
    · rw [math150]; norm_num
  · norm_num [evalDepth, evalR, mathCS, mathT, math101, math201, math150,
      selectCourses, sortPool, insertSorted, courseLE, greedyGo, csSat, creditsSum,
      CourseSetSpec.accepts, CoursePattern.matches, SubjectPat.matches, gradeOK, noRefs]

theorem claim_C3_witness :
    (AuditResult.mk true (.leaf true [math101, math150] mathCS) [math201]).satisfied
      = (AuditResult.mk true (.leaf true [math101, math150] mathCS) [math201]).satisfied ∧
    (AuditResult.mk true (.leaf true [math101, math150] mathCS) [math201]).verdict
      = (AuditResult.mk true (.leaf true [math101, math150] mathCS) [math201]).verdict ∧
    (AuditResult.mk true (.leaf true [math101, math150] mathCS) [math201]).unconsumed
      = (AuditResult.mk true (.leaf true [math101, math150] mathCS) [math201]).unconsumed := by
  have heq : auditOne envA "A" mathT =
      .ok ⟨true, .leaf true [math101, math150] mathCS, [math201]⟩ := by
    norm_num [auditOne, link, runEval, evalDepth, evalR, envA, lookupBlock, hasCycle,
      keysOf, hasPath, succs, SRule.refs, refsPresent, mathCS, mathT, math101, math201,
      math150, selectCourses, sortPool, insertSorted, courseLE, greedyGo, csSat,
      creditsSum, CourseSetSpec.accepts, CoursePattern.matches, SubjectPat.matches,
      gradeOK, Verdict.vSat, Except.map, Except.mapError, noRefs, consume, removeOne,
      except_bind_ok]
  exact claim_C3_deterministic envA "A" mathT _ _ heq heq

theorem claim_C4_witness :
    creditsSum [maxM1, maxM2] ≤ 5 := by
  refine claim_C4_maximum_cap [] [maxM1, maxM2] 0 none 5
    (.courseSet ⟨[⟨.exact "M", ⟨100, 199⟩⟩], 2, 0, none⟩) [maxM1, maxM2]
    (.node true (.cons (.leaf true [maxM1, maxM2]
      ⟨[⟨.exact "M", ⟨100, 199⟩⟩], 2, 0, none⟩) .nil)) [maxM1, maxM2] ?_ ?_ ?_
  · intro c hc
    simp only [List.mem_cons, List.not_mem_nil, or_false] at hc
    rcases hc with rfl | rfl
    · rw [maxM1]; norm_num
    · rw [maxM2]; norm_num
  · norm_num
  · norm_num [evalDepth, evalR, maxM1, maxM2, selectCourses, sortPool, insertSorted,
      courseLE, greedyGo, csSat, creditsSum, CourseSetSpec.accepts, CoursePattern.matches,
      SubjectPat.matches, gradeOK, capTrim, withinCap, Verdict.vSat, noRefs, except_bind_ok]

theorem claim_C5_witness :
    Verdict.vSat (.leaf true [maxM1]
      ⟨[⟨.exact "M", ⟨100, 199⟩⟩], 1, 0, none⟩) = true := by
  refine claim_C5_amended_monotone [] 0 simpleCS [maxM1] extraE ?_ ?_ ?_
    (.leaf true [maxM1] ⟨[⟨.exact "M", ⟨100, 199⟩⟩], 1, 0, none⟩) [maxM1]
    (.leaf true [maxM1] ⟨[⟨.exact "M", ⟨100, 199⟩⟩], 1, 0, none⟩) [maxM1] ?_ ?_ ?_
  · decide
  · decide
  · intro c hc
    simp only [List.cons_append, List.nil_append, List.mem_cons,
      List.not_mem_nil, or_false] at hc
    rcases hc with rfl | rfl
    · rw [maxM1]; norm_num
    · rw [extraE]; norm_num
  · norm_num [evalDepth, evalR, simpleCS, maxM1, selectCourses, sortPool, insertSorted,
      courseLE, greedyGo, csSat, creditsSum, CourseSetSpec.accepts, CoursePattern.matches,
      SubjectPat.matches, gradeOK, Verdict.vSat, noRefs]
  · norm_num [evalDepth, evalR, simpleCS, maxM1, extraE, selectCourses, sortPool,
      insertSorted, courseLE, greedyGo, csSat, creditsSum, CourseSetSpec.accepts,
      CoursePattern.matches, SubjectPat.matches, gradeOK, Verdict.vSat, noRefs]
  · rfl

theorem claim_C6_witness :
    link envAB = .error .cycleDetected ∧
    auditOne envAB "A" [] = .error (.linkFailed .cycleDetected) := by
  have hcyc : IsRefCycle envAB "A" ["B"] := by
    rw [IsRefCycle]
    refine List.Chain.cons ⟨.blockRef "B" .exclusive, rfl, ?_⟩
      (List.Chain.cons ⟨.blockRef "A" .exclusive, rfl, ?_⟩ List.Chain.nil)
    · rw [SRule.refs]
      exact List.mem_singleton.mpr rfl
    · rw [SRule.refs]
      exact List.mem_singleton.mpr rfl
  exact ⟨(claim_C6_cycle_link_error envAB "A" ["B"] hcyc).1,
    (claim_C6_cycle_link_error envAB "A" ["B"] hcyc).2 "A" []⟩

end Athena
